import Mathlib

/-!
Shallow embedding of the NeuroForge hybrid memory engine and task agent
(src/agent/memory_engine.py and src/agent/task_agent.py), together with
theorems settling the specification claims about them.

Modelling conventions:
* Record ids and task ids (uuid4 strings in the source) are modelled as
  naturals drawn from a fresh counter; freshness of uuid4 is captured by
  the counter invariant.
* Wall-clock timestamps (time.time() / datetime.now) are modelled as a
  strictly increasing logical clock: each write of a timestamp consumes
  one tick.
* Python dicts are modelled as insertion-ordered association lists
  (Python 3.7+ dict semantics: assignment to an existing key keeps its
  position, a new key is appended), which is what RAMBuffer eviction's
  min() tie-breaking depends on.
* JSON-compatible payloads are modelled by the inductive type Json.
* The vector-search backend (ChromaDB or the substring fallback) is an
  external collaborator; its ranking is an opaque function field, while
  the set of indexed ids is tracked explicitly.
-/

/-- JSON-compatible values, the payload type of memory record content. -/
inductive Json where
  | null : Json
  | bool (b : Bool) : Json
  | num (n : Int) : Json
  | str (s : String) : Json
  | arr (elems : List Json) : Json
  | obj (fields : List (String × Json)) : Json

/-- Insertion-ordered association-list lookup (Python dict `d[k]` read). -/
def lookupA {κ : Type} {α : Type} [DecidableEq κ] (k : κ) : List (κ × α) → Option α
  | [] => none
  | (k', v) :: rest => if k' = k then some v else lookupA k rest

/-- Insertion-ordered association-list write (Python dict `d[k] = v`):
an existing key keeps its position, a new key is appended at the end. -/
def updateA {κ : Type} {α : Type} [DecidableEq κ] (k : κ) (v : α) : List (κ × α) → List (κ × α)
  | [] => [(k, v)]
  | (k', v') :: rest => if k' = k then (k, v) :: rest else (k', v') :: updateA k v rest

/-- Association-list deletion (Python `del d[k]`). -/
def eraseA {κ : Type} {α : Type} [DecidableEq κ] (k : κ) : List (κ × α) → List (κ × α)
  | [] => []
  | (k', v') :: rest => if k' = k then rest else (k', v') :: eraseA k rest

/-- First entry attaining the minimal value, like Python's
`min(d.keys(), key=lambda k: d[k])` over an insertion-ordered dict. -/
def argminA : List (Nat × Nat) → Option (Nat × Nat)
  | [] => none
  | p :: rest =>
    match argminA rest with
    | none => some p
    | some q => some (if q.2 < p.2 then q else p)

/-- MemoryContext dataclass of memory_engine.py. -/
structure MemoryContext where
  id : Nat
  content : List (String × Json)
  tags : List String
  timestamp : Nat
  session_id : Nat
  workspace_path : Option String := none
  git_hash : Option String := none

/-- RAMBuffer: the bounded in-process LRU cache tier.  `clock` models
`time.time()` as a strictly increasing logical clock. -/
structure RAMBuffer where
  max_size : Nat
  buffer : List (Nat × MemoryContext) := []
  access_times : List (Nat × Nat) := []
  clock : Nat := 0

/-- RAMBuffer.get: on a hit, refresh the access time and return the item;
on a miss, return None and leave the buffer untouched. -/
def RAMBuffer.get (b : RAMBuffer) (key : Nat) : Option MemoryContext × RAMBuffer :=
  match lookupA key b.buffer with
  | some ctx =>
      (some ctx, { b with access_times := updateA key b.clock b.access_times,
                          clock := b.clock + 1 })
  | none => (none, b)

/-- RAMBuffer._evict_lru: remove the entry with the least access time
(first such entry on ties, as Python's min over an ordered dict). -/
def RAMBuffer.evict_lru (b : RAMBuffer) : RAMBuffer :=
  match argminA b.access_times with
  | none => b
  | some lru =>
      { b with buffer := eraseA lru.1 b.buffer,
               access_times := eraseA lru.1 b.access_times }

/-- RAMBuffer.put: when the buffer is at (or beyond) capacity, first evict
the LRU entry, then write the item and stamp its access time. -/
def RAMBuffer.put (b : RAMBuffer) (key : Nat) (ctx : MemoryContext) : RAMBuffer :=
  let b := if b.max_size ≤ b.buffer.length then b.evict_lru else b
  { b with buffer := updateA key ctx b.buffer,
           access_times := updateA key b.clock b.access_times,
           clock := b.clock + 1 }

/-- The searchable-index tier (VectorStore).  `entries` is the list of ids
that have been indexed, in add order; `query_similar` is the backend's
opaque ranking (ChromaDB, or the substring fallback), returning scored
candidate ids for a query. -/
structure VectorStore where
  entries : List Nat := []
  query_similar : String → Nat → List (Nat × Int)

/-- VectorStore.add_context registers the record with the index. -/
def VectorStore.add_context (v : VectorStore) (ctx : MemoryContext) : VectorStore :=
  { v with entries := v.entries ++ [ctx.id] }

/-- MemoryEngine state: cache tier, durable log (LMDB keyed by id),
search index, session/workspace identity and the id/time supplies. -/
structure MemoryEngine where
  max_ram_size : Nat
  ram_buffer : RAMBuffer
  persistent : List (Nat × MemoryContext) := []
  vector : VectorStore
  session_id : Nat
  workspace_path : String
  git_hash : Option String := none
  next_id : Nat := 0
  clock : Nat := 0

/-- A fresh engine as built by MemoryEngine.__init__: empty cache of the
configured capacity, empty durable log, empty index. -/
def MemoryEngine.init (maxRam : Nat) (session : Nat) (ws : String)
    (ranking : String → Nat → List (Nat × Int)) : MemoryEngine :=
  { max_ram_size := maxRam,
    ram_buffer := { max_size := maxRam },
    vector := { query_similar := ranking },
    session_id := session,
    workspace_path := ws }

/-- MemoryEngine.store_memory with an explicit durable-tier outcome: the
record is first put in the RAM buffer; if the durable write fails the
exception propagates (result `none`) with the cache write already applied
and the durable log and index untouched; otherwise the durable log and
index are written and the fresh id is returned. -/
def MemoryEngine.store_memory_durable (e : MemoryEngine) (content : List (String × Json))
    (tags : List String) (durable_ok : Bool) : Option Nat × MemoryEngine :=
  let cid := e.next_id
  let ctx : MemoryContext :=
    { id := cid, content := content, tags := tags, timestamp := e.clock,
      session_id := e.session_id, workspace_path := some e.workspace_path,
      git_hash := e.git_hash }
  let e1 := { e with ram_buffer := e.ram_buffer.put cid ctx,
                     next_id := e.next_id + 1, clock := e.clock + 1 }
  if durable_ok then
    (some cid,
     { e1 with persistent := updateA cid ctx e1.persistent,
               vector := e1.vector.add_context ctx })
  else
    (none, e1)

/-- MemoryEngine.store_memory on the normal path (durable write succeeds). -/
def MemoryEngine.store_memory (e : MemoryEngine) (content : List (String × Json))
    (tags : List String) : Nat × MemoryEngine :=
  let r := e.store_memory_durable content tags true
  (r.1.getD e.next_id, r.2)

/-- MemoryEngine.retrieve_memory: RAM buffer first (refreshing its access
time on a hit); on a miss, the durable log, promoting a hit into the
cache; otherwise None. -/
def MemoryEngine.retrieve_memory (e : MemoryEngine) (cid : Nat) :
    Option MemoryContext × MemoryEngine :=
  match e.ram_buffer.get cid with
  | (some ctx, rb) => (some ctx, { e with ram_buffer := rb })
  | (none, rb) =>
    match lookupA cid e.persistent with
    | some ctx => (some ctx, { e with ram_buffer := rb.put cid ctx })
    | none => (none, { e with ram_buffer := rb })

/-- The candidate-consuming loop of MemoryEngine.search_memories: retrieve
each ranked candidate in order, drop those whose tags do not intersect a
non-empty tag filter, stop once `limit` records are collected. -/
def searchLoop (tags : List String) (limit : Nat) :
    List (Nat × Int) → List MemoryContext → MemoryEngine →
    List MemoryContext × MemoryEngine
  | [], acc, e => (acc, e)
  | (cid, _) :: rest, acc, e =>
    match e.retrieve_memory cid with
    | (none, e') => searchLoop tags limit rest acc e'
    | (some ctx, e') =>
      if !tags.isEmpty && !(tags.any fun t => ctx.tags.contains t) then
        searchLoop tags limit rest acc e'
      else
        let acc' := acc ++ [ctx]
        if limit ≤ acc'.length then (acc', e')
        else searchLoop tags limit rest acc' e'

/-- MemoryEngine.search_memories: ask the index for `2 × limit` ranked
candidates, then run the collection loop. -/
def MemoryEngine.search_memories (e : MemoryEngine) (query : String)
    (tags : List String) (limit : Nat) : List MemoryContext × MemoryEngine :=
  searchLoop tags limit (e.vector.query_similar query (limit * 2)) [] e

/-- MemoryEngine.get_workspace_context: a best-effort snapshot of the
workspace identity, with git information when a repo is available. -/
def MemoryEngine.get_workspace_context (e : MemoryEngine) : List (String × Json) :=
  let base : List (String × Json) :=
    [("workspace_path", Json.str e.workspace_path),
     ("session_id", Json.num e.session_id),
     ("timestamp", Json.num e.clock)]
  match e.git_hash with
  | some h => base ++ [("git_hash", Json.str h)]
  | none => base

/-- TaskStatus enum of task_agent.py. -/
inductive TaskStatus where
  | pending
  | running
  | completed
  | failed
  | cancelled
deriving DecidableEq, Repr

/-- TaskResult dataclass of task_agent.py. -/
structure TaskResult where
  task_id : Nat
  status : TaskStatus
  output : Option (List (String × Json))
  error : Option String := none
  execution_time : Nat := 0
  memory_contexts : List Nat := []

/-- The Task dataclass of task_agent.py (named AgentTask here to avoid the builtin). -/
structure AgentTask where
  id : Nat
  name : String
  description : String
  plugin_chain : List String
  parameters : List (String × Json)
  priority : Int := 1
  created_at : Nat
  context_id : Option Nat := none

/-- A registered plugin: its parameter-validation predicate and its
execute body, which may fail (raise) with a message. -/
structure Plugin where
  validate : List (String × Json) → Bool
  run : List (String × Json) → List (String × Json) → Except String (List (String × Json))

/-- PluginManager.execute_plugin: unknown plugin and failed validation
raise ValueError; otherwise the plugin body runs. -/
def execute_plugin (pm : List (String × Plugin)) (name : String)
    (params : List (String × Json)) (ctx : List (String × Json)) :
    Except String (List (String × Json)) :=
  match lookupA name pm with
  | none => Except.error ("Plugin " ++ name ++ " not found")
  | some p =>
    if p.validate params then p.run params ctx
    else Except.error ("Invalid parameters for plugin " ++ name)

/-- The per-plugin loop of TaskAgent.execute_task_chain, threading the
execution context, the accumulated chain output, the created memory ids
and the engine.  A raising plugin short-circuits into the except branch,
which stores an error record and returns a failed TaskResult; an
exhausted chain stores the final record and returns a completed one. -/
def chainLoop (pm : List (String × Plugin)) (task : AgentTask) (start : Nat) :
    List String → List (String × Json) → List (String × Json) → List Nat →
    MemoryEngine → TaskResult × MemoryEngine
  | [], _execCtx, chain_output, memCtxs, e =>
    let final : List (String × Json) :=
      [("task_id", Json.num task.id), ("status", Json.str "completed"),
       ("final_output", Json.obj chain_output),
       ("execution_time", Json.num (e.clock - start))]
    let r := e.store_memory final ["task", "completed", task.name]
    ({ task_id := task.id, status := TaskStatus.completed, output := some chain_output,
       error := none, execution_time := r.2.clock - start,
       memory_contexts := memCtxs ++ [r.1] }, r.2)
  | name :: rest, execCtx, chain_output, memCtxs, e =>
    match execute_plugin pm name task.parameters execCtx with
    | Except.error msg =>
      let errCtx : List (String × Json) :=
        [("task_id", Json.num task.id), ("status", Json.str "failed"),
         ("error", Json.str msg), ("execution_time", Json.num (e.clock - start))]
      let r := e.store_memory errCtx ["task", "failed", "error"]
      ({ task_id := task.id, status := TaskStatus.failed, output := none,
         error := some msg, execution_time := r.2.clock - start,
         memory_contexts := memCtxs ++ [r.1] }, r.2)
    | Except.ok res =>
      let execCtx' := updateA (name ++ "_output") (Json.obj res) execCtx
      let chain_output' := updateA name (Json.obj res) chain_output
      let inter : List (String × Json) :=
        [("task_id", Json.num task.id), ("plugin", Json.str name),
         ("output", Json.obj res), ("step", Json.num chain_output'.length)]
      let r := e.store_memory inter ["task", "plugin_output", name]
      chainLoop pm task start rest execCtx' chain_output' (memCtxs ++ [r.1]) r.2

/-- The context-building preamble of TaskAgent.execute_task_chain: the
workspace snapshot, the task's stored submission record and the
parameters assembled into the execution context, along with the engine
after the context-record read. -/
def execPreamble (task : AgentTask) (e : MemoryEngine) :
    List (String × Json) × MemoryEngine :=
  let ws := e.get_workspace_context
  let tm : Option MemoryContext × MemoryEngine :=
    match task.context_id with
    | some cid => e.retrieve_memory cid
    | none => (none, e)
  let task_memory := match tm.1 with
    | some c => c.content
    | none => []
  ([("task_id", Json.num task.id), ("workspace", Json.obj ws),
    ("task_memory", Json.obj task_memory), ("parameters", Json.obj task.parameters)],
   tm.2)

/-- TaskAgent.execute_task_chain: build the execution context (workspace
snapshot, the task's stored submission record, the parameters) and run
the plugin chain. -/
def execute_task_chain (pm : List (String × Plugin)) (task : AgentTask)
    (e : MemoryEngine) : TaskResult × MemoryEngine :=
  chainLoop pm task e.clock task.plugin_chain (execPreamble task e).1 [] []
    (execPreamble task e).2

/-- TaskAgent._handle_task_completion: the result it records — the chain
result on normal completion, a fresh failed result carrying the raised
message otherwise. -/
def handle_task_completion (task_id : Nat) (outcome : Except String TaskResult) :
    TaskResult :=
  match outcome with
  | Except.ok r => r
  | Except.error msg =>
    { task_id := task_id, status := TaskStatus.failed, output := none,
      error := some msg }

/-- TaskQueue.add_task: the queue holds (-priority, created_at, task)
entries, as fed to the min-heap PriorityQueue. -/
def TaskQueue.add_task (q : List (Int × Nat × AgentTask)) (t : AgentTask) :
    List (Int × Nat × AgentTask) :=
  q ++ [(-t.priority, t.created_at, t)]

/-- Strict lexicographic order on the heap keys (-priority, created_at). -/
def entryKeyLt (a b : Int × Nat × AgentTask) : Bool :=
  a.1 < b.1 || (a.1 = b.1 && a.2.1 < b.2.1)

/-- Extract the minimum-key entry, as the PriorityQueue's get does; among
equal keys the earliest entry is taken. -/
def popMinEntry : List (Int × Nat × AgentTask) →
    Option ((Int × Nat × AgentTask) × List (Int × Nat × AgentTask))
  | [] => none
  | p :: rest =>
    match popMinEntry rest with
    | none => some (p, [])
    | some (q, rest') => if entryKeyLt q p then some (q, p :: rest') else some (p, rest)

/-- TaskQueue.get_next_task: pop the highest-priority (minimum-key) task,
or None when the queue is empty. -/
def TaskQueue.get_next_task (q : List (Int × Nat × AgentTask)) :
    Option AgentTask × List (Int × Nat × AgentTask) :=
  match popMinEntry q with
  | none => (none, q)
  | some (e, q') => (some e.2.2, q')

/-- TaskAgent state: the memory engine, the registered plugins, and the
task queue's pending entries, running set and result map. -/
structure TaskAgent where
  engine : MemoryEngine
  pluginEnv : List (String × Plugin) := []
  queue : List (Int × Nat × AgentTask) := []
  running : List Nat := []
  results : List (Nat × TaskResult) := []
  next_task_id : Nat := 0
  max_concurrent : Nat := 3

/-- TaskAgent.submit_task: build a AgentTask with a fresh id, persist a
pending record capturing the chain and parameters, attach its id as the
task's context_id, enqueue, and return the task id. -/
def TaskAgent.submit_task (a : TaskAgent) (name description : String)
    (plugin_chain : List String) (parameters : List (String × Json))
    (priority : Int) : Nat × TaskAgent :=
  let task : AgentTask :=
    { id := a.next_task_id, name := name, description := description,
      plugin_chain := plugin_chain, parameters := parameters,
      priority := priority, created_at := a.engine.clock }
  let task_context : List (String × Json) :=
    [("task_id", Json.num task.id), ("name", Json.str name),
     ("description", Json.str description),
     ("plugins", Json.arr (plugin_chain.map Json.str)),
     ("parameters", Json.obj parameters),
     ("status", Json.str "pending")]
  let r := a.engine.store_memory task_context ["task", "pending"]
  let task' := { task with context_id := some r.1 }
  (task'.id,
   { a with engine := r.2, queue := TaskQueue.add_task a.queue task',
            next_task_id := a.next_task_id + 1 })

/-- Scheduler-visible state for the executor loop of task_agent.py. -/
structure SchedState where
  max_concurrent : Nat
  queue : List (Int × Nat × AgentTask) := []
  running : List Nat := []
  results : List (Nat × TaskResult) := []

/-- One step of the system around the executor loop: a submission
enqueues; the loop dequeues and registers a running task only under the
guard running_count < max_concurrent; a completion handler moves a
running id into the result map. -/
inductive SchedStep : SchedState → SchedState → Prop where
  | submit (s : SchedState) (t : AgentTask) :
      SchedStep s { s with queue := TaskQueue.add_task s.queue t }
  | schedule (s : SchedState) (t : AgentTask) (q' : List (Int × Nat × AgentTask)) :
      s.running.length < s.max_concurrent →
      TaskQueue.get_next_task s.queue = (some t, q') →
      SchedStep s { s with queue := q', running := s.running ++ [t.id] }
  | complete (s : SchedState) (r : TaskResult) :
      r.task_id ∈ s.running →
      SchedStep s { s with running := s.running.erase r.task_id,
                           results := updateA r.task_id r s.results }

/-- Reachability under scheduler steps. -/
inductive SchedReachable : SchedState → SchedState → Prop where
  | refl (s : SchedState) : SchedReachable s s
  | tail {s t u : SchedState} : SchedReachable s t → SchedStep t u → SchedReachable s u

/-! ### Association-list lemmas -/

/-- Keys of an association list, in order. -/
def keysA {κ : Type} {α : Type} (l : List (κ × α)) : List κ :=
  l.map Prod.fst

theorem lookupA_updateA_self {κ α : Type} [DecidableEq κ] (k : κ) (v : α)
    (l : List (κ × α)) : lookupA k (updateA k v l) = some v := by
  induction l with
  | nil => simp [updateA, lookupA]
  | cons p rest ih =>
    by_cases h : p.1 = k
    · simp [updateA, h, lookupA]
    · simp [updateA, h, lookupA, ih]

theorem lookupA_updateA_ne {κ α : Type} [DecidableEq κ] {k k' : κ} (v : α)
    (l : List (κ × α)) (h : k ≠ k') : lookupA k' (updateA k v l) = lookupA k' l := by
  induction l with
  | nil => simp [updateA, lookupA, h]
  | cons p rest ih =>
    by_cases hp : p.1 = k
    · subst hp
      simp [updateA, lookupA, h, ih]
    · by_cases hp' : p.1 = k'
      · simp [updateA, lookupA, hp, hp', Ne.symm h]
      · simp [updateA, lookupA, hp, hp', ih]

theorem lookupA_eq_none_of_not_mem {κ α : Type} [DecidableEq κ] {k : κ}
    {l : List (κ × α)} (h : k ∉ keysA l) : lookupA k l = none := by
  induction l with
  | nil => simp [lookupA]
  | cons p rest ih =>
    simp only [keysA, List.map_cons, List.mem_cons] at h
    push_neg at h
    simp [lookupA, Ne.symm h.1, ih (by simpa [keysA] using h.2)]

theorem updateA_eq_append_of_not_mem {κ α : Type} [DecidableEq κ] {k : κ} (v : α)
    {l : List (κ × α)} (h : k ∉ keysA l) : updateA k v l = l ++ [(k, v)] := by
  induction l with
  | nil => simp [updateA]
  | cons p rest ih =>
    simp only [keysA, List.map_cons, List.mem_cons] at h
    push_neg at h
    simp [updateA, Ne.symm h.1, ih (by simpa [keysA] using h.2)]

theorem mem_updateA_of_mem_ne {κ α : Type} [DecidableEq κ] {k : κ} (v : α)
    {p : κ × α} {l : List (κ × α)} (hp : p ∈ l) (hne : p.1 ≠ k) :
    p ∈ updateA k v l := by
  induction l with
  | nil => cases hp
  | cons q rest ih =>
    rcases List.mem_cons.mp hp with h | h
    · subst h
      simp [updateA, hne]
    · by_cases hq : q.1 = k
      · simp [updateA, hq, h]
      · simp only [updateA, if_neg hq, List.mem_cons]
        exact Or.inr (ih h)

theorem lookupA_append_left {κ α : Type} [DecidableEq κ] {k : κ} {v : α}
    {l l' : List (κ × α)} (h : lookupA k l = some v) :
    lookupA k (l ++ l') = some v := by
  induction l with
  | nil => simp [lookupA] at h
  | cons p rest ih =>
    by_cases hp : p.1 = k
    · simpa [lookupA, hp] using h
    · simp only [lookupA, hp, if_neg hp] at h ⊢
      exact ih h

theorem keysA_updateA_of_not_mem {κ α : Type} [DecidableEq κ] {k : κ} (v : α)
    {l : List (κ × α)} (h : k ∉ keysA l) :
    keysA (updateA k v l) = keysA l ++ [k] := by
  rw [updateA_eq_append_of_not_mem v h]
  simp [keysA]

theorem mem_of_mem_updateA {κ α : Type} [DecidableEq κ] {k : κ} {v : α}
    {p : κ × α} {l : List (κ × α)} (h : p ∈ updateA k v l) :
    p ∈ l ∨ p = (k, v) := by
  induction l with
  | nil => simpa [updateA] using h
  | cons q rest ih =>
    by_cases hq : q.1 = k
    · simp only [updateA, if_pos hq, List.mem_cons] at h
      rcases h with h | h
      · exact Or.inr h
      · exact Or.inl (List.mem_cons_of_mem _ h)
    · simp only [updateA, if_neg hq, List.mem_cons] at h
      rcases h with h | h
      · exact Or.inl (by simp [h])
      · rcases ih h with h' | h'
        · exact Or.inl (List.mem_cons_of_mem _ h')
        · exact Or.inr h'

theorem mem_of_mem_eraseA {κ α : Type} [DecidableEq κ] {k : κ}
    {p : κ × α} {l : List (κ × α)} (h : p ∈ eraseA k l) : p ∈ l := by
  induction l with
  | nil => simp [eraseA] at h
  | cons q rest ih =>
    by_cases hq : q.1 = k
    · simp only [eraseA, if_pos hq] at h
      exact List.mem_cons_of_mem _ h
    · simp only [eraseA, if_neg hq, List.mem_cons] at h
      rcases h with h | h
      · simp [h]
      · exact List.mem_cons_of_mem _ (ih h)

/-! ### Claim C7: the concurrency cap is never exceeded -/

/-- C7: at every state reachable by the scheduler loop from a state with
no running tasks, the running set has at most max_concurrent members —
the loop only dequeues under the guard running_count < max_concurrent. -/
theorem sched_running_le_max (s0 s : SchedState) (h0 : s0.running = [])
    (hr : SchedReachable s0 s) : s.running.length ≤ s.max_concurrent := by
  induction hr with
  | refl => simp [h0]
  | tail _ step ih =>
    cases step with
    | submit t => simpa using ih
    | schedule t q' hlt hq =>
      simp only [List.length_append, List.length_singleton]
      omega
    | complete r hmem =>
      have := List.length_erase_of_mem hmem
      simp only [this]
      omega

/-- Witness for C7 at a concrete instant: with max_concurrent = 3 and an
empty initial running set, the bound holds at the initial state itself. -/
theorem sched_running_le_max_witness :
    ({ max_concurrent := 3 } : SchedState).running.length ≤ 3 :=
  sched_running_le_max { max_concurrent := 3 } { max_concurrent := 3 } rfl
    (SchedReachable.refl _)

/-! ### Claim C9: error present iff status failed -/

/-- Any result of the chain loop is completed with no error or failed
with an error message. -/
theorem chainLoop_result_cases (pm : List (String × Plugin)) (task : AgentTask)
    (start : Nat) :
    ∀ (names : List String) (execCtx chain_output : List (String × Json))
      (memCtxs : List Nat) (e : MemoryEngine),
      ((chainLoop pm task start names execCtx chain_output memCtxs e).1.status =
          TaskStatus.completed ∧
        (chainLoop pm task start names execCtx chain_output memCtxs e).1.error = none) ∨
      ((chainLoop pm task start names execCtx chain_output memCtxs e).1.status =
          TaskStatus.failed ∧
        ∃ m, (chainLoop pm task start names execCtx chain_output memCtxs e).1.error = some m) := by
  intro names
  induction names with
  | nil =>
    intro execCtx chain_output memCtxs e
    simp [chainLoop]
  | cons name rest ih =>
    intro execCtx chain_output memCtxs e
    cases h : execute_plugin pm name task.parameters execCtx with
    | error msg => simp [chainLoop, h]
    | ok res => simpa [chainLoop, h] using ih _ _ _ _

/-- The chain executor's result is completed-with-no-error or
failed-with-an-error. -/
theorem execute_task_chain_result_cases (pm : List (String × Plugin))
    (task : AgentTask) (e : MemoryEngine) :
    ((execute_task_chain pm task e).1.status = TaskStatus.completed ∧
      (execute_task_chain pm task e).1.error = none) ∨
    ((execute_task_chain pm task e).1.status = TaskStatus.failed ∧
      ∃ m, (execute_task_chain pm task e).1.error = some m) :=
  chainLoop_result_cases pm task _ _ _ _ _ _

/-- C9: a TaskResult produced by the chain executor carries an error iff
its status is failed, and the same holds for both kinds of result
recorded by the completion handler. -/
theorem result_error_iff_failed (pm : List (String × Plugin)) (task : AgentTask)
    (e : MemoryEngine) (tid : Nat) (msg : String) :
    ((execute_task_chain pm task e).1.error.isSome = true ↔
      (execute_task_chain pm task e).1.status = TaskStatus.failed) ∧
    ((handle_task_completion tid (Except.ok (execute_task_chain pm task e).1)).error.isSome = true ↔
      (handle_task_completion tid (Except.ok (execute_task_chain pm task e).1)).status = TaskStatus.failed) ∧
    ((handle_task_completion tid (Except.error msg)).error.isSome = true ↔
      (handle_task_completion tid (Except.error msg)).status = TaskStatus.failed) := by
  have hiff : (execute_task_chain pm task e).1.error.isSome = true ↔
      (execute_task_chain pm task e).1.status = TaskStatus.failed := by
    rcases execute_task_chain_result_cases pm task e with ⟨h1, h2⟩ | ⟨h1, ⟨m, hm⟩⟩
    · rw [h1, h2]
      simp
    · rw [h1, hm]
      simp
  exact ⟨hiff, by simpa [handle_task_completion] using hiff,
    by simp [handle_task_completion]⟩

/-- A cache hit: when the RAM buffer holds the id, retrieve returns that
record. -/
theorem retrieve_memory_cache_hit (e : MemoryEngine) (cid : Nat)
    (ctx : MemoryContext) (h : lookupA cid e.ram_buffer.buffer = some ctx) :
    (e.retrieve_memory cid).1 = some ctx := by
  simp [MemoryEngine.retrieve_memory, RAMBuffer.get, h]

/-! ### Claim C1: failed durable write during store -/

/-- C1 counterexample: on a fresh engine, when the durable write of a
store fails, the raised error reaches the caller (no id is returned), yet
the generated id IS still addressable — retrieve finds the record in the
cache, because store_memory writes the RAM buffer before the durable log
and never rolls it back. -/
theorem store_fail_retrieve_not_absent :
    (((MemoryEngine.init 10 0 "ws" (fun _ _ => [])).store_memory_durable
        [("note", Json.str "v")] ["t"] false).1 = none) ∧
    ((((MemoryEngine.init 10 0 "ws" (fun _ _ => [])).store_memory_durable
        [("note", Json.str "v")] ["t"] false).2.retrieve_memory 0).1.isSome = true) :=
  ⟨rfl, rfl⟩

/-- C1 amended: when the durable write inside store fails, the failure
propagates to the caller and the durable log and search index gain no
record, but the cache write is not rolled back — the freshly generated id
remains addressable via retrieve, which returns the very record (same
content and tags) from the RAM buffer. -/
theorem store_fail_cache_left_addressable (e : MemoryEngine)
    (content : List (String × Json)) (tags : List String) :
    ((e.store_memory_durable content tags false).1 = none) ∧
    ((e.store_memory_durable content tags false).2.persistent = e.persistent) ∧
    ((e.store_memory_durable content tags false).2.vector.entries = e.vector.entries) ∧
    (∃ ctx, (((e.store_memory_durable content tags false).2.retrieve_memory e.next_id).1 =
        some ctx) ∧ ctx.content = content ∧ ctx.tags = tags) := by
  refine ⟨rfl, rfl, rfl, ?_⟩
  exact ⟨{ id := e.next_id, content := content, tags := tags, timestamp := e.clock,
           session_id := e.session_id, workspace_path := some e.workspace_path,
           git_hash := e.git_hash },
         retrieve_memory_cache_hit _ e.next_id _ (lookupA_updateA_self _ _ _),
         rfl, rfl⟩

/-! ### Claim C8: submit_task builds, persists, enqueues and returns -/

/-- C8: submit_task returns the freshly generated task id, persists a
pending record whose content carries the plugin chain and the parameters
verbatim under the tags ["task", "pending"], attaches that record id as
the enqueued task's context_id, appends exactly that task to the queue,
and touches neither the running set nor the results (no execution). -/
theorem submit_task_spec (a : TaskAgent) (name description : String)
    (chain : List String) (params : List (String × Json)) (priority : Int) :
    ((a.submit_task name description chain params priority).1 = a.next_task_id) ∧
    (∃ ctx, lookupA a.engine.next_id
        (a.submit_task name description chain params priority).2.engine.persistent = some ctx ∧
      ctx.tags = ["task", "pending"] ∧
      lookupA "plugins" ctx.content = some (Json.arr (chain.map Json.str)) ∧
      lookupA "parameters" ctx.content = some (Json.obj params) ∧
      lookupA "status" ctx.content = some (Json.str "pending") ∧
      lookupA "task_id" ctx.content = some (Json.num a.next_task_id)) ∧
    (∃ t : AgentTask,
      (a.submit_task name description chain params priority).2.queue =
        a.queue ++ [(-priority, t.created_at, t)] ∧
      t.id = a.next_task_id ∧ t.context_id = some a.engine.next_id ∧
      t.plugin_chain = chain ∧ t.parameters = params ∧ t.priority = priority) ∧
    ((a.submit_task name description chain params priority).2.running = a.running) ∧
    ((a.submit_task name description chain params priority).2.results = a.results) := by
  refine ⟨rfl,
    ⟨{ id := a.engine.next_id,
       content := [("task_id", Json.num a.next_task_id), ("name", Json.str name),
         ("description", Json.str description),
         ("plugins", Json.arr (chain.map Json.str)),
         ("parameters", Json.obj params), ("status", Json.str "pending")],
       tags := ["task", "pending"], timestamp := a.engine.clock,
       session_id := a.engine.session_id,
       workspace_path := some a.engine.workspace_path,
       git_hash := a.engine.git_hash }, ?_, rfl, ?_, ?_, ?_, ?_⟩,
    ⟨{ id := a.next_task_id, name := name, description := description,
       plugin_chain := chain, parameters := params, priority := priority,
       created_at := a.engine.clock, context_id := some a.engine.next_id },
      rfl, rfl, rfl, rfl, rfl, rfl⟩, rfl, rfl⟩
  · exact lookupA_updateA_self _ _ _
  all_goals simp [lookupA]

/-- Eviction only removes entries: anything in the buffer after
_evict_lru was there before. -/
theorem mem_buffer_evict_lru {b : RAMBuffer} {p : Nat × MemoryContext}
    (h : p ∈ b.evict_lru.buffer) : p ∈ b.buffer := by
  unfold RAMBuffer.evict_lru at h
  cases harg : argminA b.access_times with
  | none => rwa [harg] at h
  | some lru =>
    rw [harg] at h
    exact mem_of_mem_eraseA h

/-! ### Claim C10: retrieve mutates only the cache tier -/

/-- C10: retrieve leaves the durable log, the search index and the id and
time supplies unchanged; on a cache hit it only refreshes that entry's
access time (the cached records themselves are untouched); on a durable
hit it only promotes the retrieved record into the cache (any other cache
entry present afterwards was already there); on a full miss it changes
nothing at all. -/
theorem retrieve_memory_frame (e : MemoryEngine) (cid : Nat) :
    ((e.retrieve_memory cid).2.persistent = e.persistent) ∧
    ((e.retrieve_memory cid).2.vector = e.vector) ∧
    ((e.retrieve_memory cid).2.next_id = e.next_id) ∧
    ((e.retrieve_memory cid).2.clock = e.clock) ∧
    (∀ ctx, lookupA cid e.ram_buffer.buffer = some ctx →
      (e.retrieve_memory cid).1 = some ctx ∧
      (e.retrieve_memory cid).2.ram_buffer.buffer = e.ram_buffer.buffer ∧
      lookupA cid (e.retrieve_memory cid).2.ram_buffer.access_times =
        some e.ram_buffer.clock ∧
      (∀ k, k ≠ cid →
        lookupA k (e.retrieve_memory cid).2.ram_buffer.access_times =
          lookupA k e.ram_buffer.access_times)) ∧
    (lookupA cid e.ram_buffer.buffer = none →
      ∀ ctx, lookupA cid e.persistent = some ctx →
        (e.retrieve_memory cid).1 = some ctx ∧
        (∀ p, p ∈ (e.retrieve_memory cid).2.ram_buffer.buffer →
          p ∈ e.ram_buffer.buffer ∨ p = (cid, ctx))) ∧
    (lookupA cid e.ram_buffer.buffer = none → lookupA cid e.persistent = none →
      (e.retrieve_memory cid).1 = none ∧ (e.retrieve_memory cid).2 = e) := by
  cases hbuf : lookupA cid e.ram_buffer.buffer with
  | some ctx =>
    have hr : e.retrieve_memory cid =
        (some ctx, { e with ram_buffer := { e.ram_buffer with
          access_times := updateA cid e.ram_buffer.clock e.ram_buffer.access_times,
          clock := e.ram_buffer.clock + 1 } }) := by
      simp [MemoryEngine.retrieve_memory, RAMBuffer.get, hbuf]
    rw [hr]
    refine ⟨rfl, rfl, rfl, rfl, ?_, ?_, ?_⟩
    · intro ctx' h
      cases h
      exact ⟨rfl, rfl, lookupA_updateA_self _ _ _,
        fun k hk => lookupA_updateA_ne _ _ (Ne.symm hk)⟩
    · intro hnone
      cases hnone
    · intro hnone
      cases hnone
  | none =>
    cases hper : lookupA cid e.persistent with
    | some ctx =>
      have hr : e.retrieve_memory cid =
          (some ctx, { e with ram_buffer := e.ram_buffer.put cid ctx }) := by
        simp [MemoryEngine.retrieve_memory, RAMBuffer.get, hbuf, hper]
      rw [hr]
      refine ⟨rfl, rfl, rfl, rfl, ?_, ?_, ?_⟩
      · intro ctx' h
        cases h
      · intro _ ctx' h
        cases h
        refine ⟨rfl, ?_⟩
        intro p hp
        simp only [RAMBuffer.put] at hp
        rcases mem_of_mem_updateA hp with hmem | heq
        · by_cases hcap : e.ram_buffer.max_size ≤ e.ram_buffer.buffer.length
          · rw [if_pos hcap] at hmem
            exact Or.inl (mem_buffer_evict_lru hmem)
          · rw [if_neg hcap] at hmem
            exact Or.inl hmem
        · exact Or.inr heq
      · intro _ hnone
        cases hnone
    | none =>
      have hr : e.retrieve_memory cid = (none, e) := by
        simp [MemoryEngine.retrieve_memory, RAMBuffer.get, hbuf, hper]
      rw [hr]
      refine ⟨rfl, rfl, rfl, rfl, ?_, ?_, ?_⟩
      · intro ctx' h
        cases h
      · intro _ ctx' h
        cases h
      · intro _ _
        exact ⟨rfl, rfl⟩

/-- Witness for C10 on a concrete engine: a durable-tier hit with an
empty cache — the record is found and returned intact. -/
theorem retrieve_memory_frame_witness :
    (({ max_ram_size := 2, ram_buffer := { max_size := 2 },
        persistent := [(0, { id := 0, content := [("k", Json.str "v")],
                             tags := ["t"], timestamp := 0, session_id := 0 })],
        vector := { query_similar := fun _ _ => [] },
        session_id := 0, workspace_path := "ws", next_id := 1,
        clock := 1 } : MemoryEngine).retrieve_memory 0).1 =
      some { id := 0, content := [("k", Json.str "v")], tags := ["t"],
             timestamp := 0, session_id := 0 } :=
  ((retrieve_memory_frame
      { max_ram_size := 2, ram_buffer := { max_size := 2 },
        persistent := [(0, { id := 0, content := [("k", Json.str "v")],
                             tags := ["t"], timestamp := 0, session_id := 0 })],
        vector := { query_similar := fun _ _ => [] },
        session_id := 0, workspace_path := "ws", next_id := 1, clock := 1 }
      0).2.2.2.2.2.1 rfl _ rfl).1

/-! ### Claim C5: search ranking consumption, tag filter, limit -/

theorem mem_of_lookupA {κ α : Type} [DecidableEq κ] {k : κ} {v : α}
    {l : List (κ × α)} (h : lookupA k l = some v) : (k, v) ∈ l := by
  induction l with
  | nil => simp [lookupA] at h
  | cons p rest ih =>
    by_cases hp : p.1 = k
    · simp only [lookupA, if_pos hp] at h
      cases h
      simp only [List.mem_cons]
      left
      rw [← hp]
    · simp only [lookupA, if_neg hp] at h
      exact List.mem_cons_of_mem _ (ih h)

/-- Store well-formedness: every tier holds each record under its own id. -/
def WFStore (e : MemoryEngine) : Prop :=
  (∀ p ∈ e.persistent, (p.2).id = p.1) ∧
  (∀ p ∈ e.ram_buffer.buffer, (p.2).id = p.1)

/-- In a well-formed store, a retrieved record carries the requested id. -/
theorem retrieve_memory_id {e : MemoryEngine} (hwf : WFStore e) {cid : Nat}
    {ctx : MemoryContext} (h : (e.retrieve_memory cid).1 = some ctx) :
    ctx.id = cid := by
  unfold MemoryEngine.retrieve_memory RAMBuffer.get at h
  cases hbuf : lookupA cid e.ram_buffer.buffer with
  | some c =>
    rw [hbuf] at h
    simp only at h
    cases h
    exact hwf.2 _ (mem_of_lookupA hbuf)
  | none =>
    rw [hbuf] at h
    simp only at h
    cases hper : lookupA cid e.persistent with
    | some c =>
      rw [hper] at h
      simp only at h
      cases h
      exact hwf.1 _ (mem_of_lookupA hper)
    | none =>
      rw [hper] at h
      simp only at h
      cases h

/-- retrieve preserves store well-formedness. -/
theorem retrieve_memory_WF {e : MemoryEngine} (hwf : WFStore e) (cid : Nat) :
    WFStore (e.retrieve_memory cid).2 := by
  unfold MemoryEngine.retrieve_memory RAMBuffer.get
  cases hbuf : lookupA cid e.ram_buffer.buffer with
  | some c =>
    exact ⟨hwf.1, hwf.2⟩
  | none =>
    cases hper : lookupA cid e.persistent with
    | some c =>
      refine ⟨hwf.1, ?_⟩
      intro p hp
      simp only [RAMBuffer.put] at hp
      rcases mem_of_mem_updateA hp with hmem | heq
      · by_cases hcap : e.ram_buffer.max_size ≤ e.ram_buffer.buffer.length
        · rw [if_pos hcap] at hmem
          exact hwf.2 _ (mem_buffer_evict_lru hmem)
        · rw [if_neg hcap] at hmem
          exact hwf.2 _ hmem
      · subst heq
        exact hwf.1 _ (mem_of_lookupA hper)
    | none =>
      exact ⟨hwf.1, hwf.2⟩

/-- searchLoop step equation: a candidate the store does not know is
skipped. -/
theorem searchLoop_cons_miss {tags : List String} {limit : Nat} {cid : Nat}
    {s : Int} {rest : List (Nat × Int)} {acc : List MemoryContext}
    {e e2 : MemoryEngine} (hret : e.retrieve_memory cid = (none, e2)) :
    searchLoop tags limit ((cid, s) :: rest) acc e =
      searchLoop tags limit rest acc e2 := by
  simp [searchLoop, hret]

/-- searchLoop step equation: a retrieved record failing the tag filter
is dropped. -/
theorem searchLoop_cons_skip {tags : List String} {limit : Nat} {cid : Nat}
    {s : Int} {rest : List (Nat × Int)} {acc : List MemoryContext}
    {e e2 : MemoryEngine} {ctx : MemoryContext}
    (hret : e.retrieve_memory cid = (some ctx, e2))
    (hskip : (!tags.isEmpty && !(tags.any fun t => ctx.tags.contains t)) = true) :
    searchLoop tags limit ((cid, s) :: rest) acc e =
      searchLoop tags limit rest acc e2 := by
  simp only [searchLoop, hret]
  rw [if_pos hskip]

/-- searchLoop step equation: a kept record that fills the limit stops
the loop. -/
theorem searchLoop_cons_stop {tags : List String} {limit : Nat} {cid : Nat}
    {s : Int} {rest : List (Nat × Int)} {acc : List MemoryContext}
    {e e2 : MemoryEngine} {ctx : MemoryContext}
    (hret : e.retrieve_memory cid = (some ctx, e2))
    (hskip : ¬(!tags.isEmpty && !(tags.any fun t => ctx.tags.contains t)) = true)
    (hstop : limit ≤ (acc ++ [ctx]).length) :
    searchLoop tags limit ((cid, s) :: rest) acc e = (acc ++ [ctx], e2) := by
  simp only [searchLoop, hret]
  rw [if_neg hskip, if_pos hstop]

/-- searchLoop step equation: a kept record below the limit is appended
and the loop continues. -/
theorem searchLoop_cons_keep {tags : List String} {limit : Nat} {cid : Nat}
    {s : Int} {rest : List (Nat × Int)} {acc : List MemoryContext}
    {e e2 : MemoryEngine} {ctx : MemoryContext}
    (hret : e.retrieve_memory cid = (some ctx, e2))
    (hskip : ¬(!tags.isEmpty && !(tags.any fun t => ctx.tags.contains t)) = true)
    (hstop : ¬limit ≤ (acc ++ [ctx]).length) :
    searchLoop tags limit ((cid, s) :: rest) acc e =
      searchLoop tags limit rest (acc ++ [ctx]) e2 := by
  simp only [searchLoop, hret]
  rw [if_neg hskip, if_neg hstop]

/-- Records collected by the search loop keep the tag-filter invariant:
when the requested tags are non-empty, everything collected intersects
them. -/
theorem searchLoop_tag_sound (tags : List String) (limit : Nat)
    (htags : tags ≠ []) :
    ∀ (cands : List (Nat × Int)) (acc : List MemoryContext) (e : MemoryEngine),
      (∀ c ∈ acc, ∃ t ∈ tags, c.tags.contains t = true) →
      ∀ c ∈ (searchLoop tags limit cands acc e).1,
        ∃ t ∈ tags, c.tags.contains t = true := by
  intro cands
  induction cands with
  | nil =>
    intro acc e hacc c hc
    exact hacc c hc
  | cons p rest ih =>
    intro acc e hacc c hc
    obtain ⟨cid, s⟩ := p
    rcases hret : e.retrieve_memory cid with ⟨res, e2⟩
    cases res with
    | none =>
      rw [searchLoop_cons_miss hret] at hc
      exact ih acc _ hacc c hc
    | some ctx =>
      by_cases hskip : (!tags.isEmpty && !(tags.any fun t => ctx.tags.contains t)) = true
      · rw [searchLoop_cons_skip hret hskip] at hc
        exact ih acc _ hacc c hc
      · have hctx : ∃ t ∈ tags, ctx.tags.contains t = true := by
          have hne : tags.isEmpty = false := by
            cases tags with
            | nil => exact absurd rfl htags
            | cons a l => rfl
          simp only [hne, Bool.not_false, Bool.true_and, Bool.not_eq_true',
            List.any_eq_false] at hskip
          push_neg at hskip
          obtain ⟨t, ht, htt⟩ := hskip
          exact ⟨t, ht, by simpa using htt⟩
        have hacc' : ∀ c ∈ acc ++ [ctx], ∃ t ∈ tags, c.tags.contains t = true := by
          intro c' hc'
          rcases List.mem_append.mp hc' with h | h
          · exact hacc c' h
          · rw [List.mem_singleton.mp h]
            exact hctx
        by_cases hstop : limit ≤ (acc ++ [ctx]).length
        · rw [searchLoop_cons_stop hret hskip hstop] at hc
          exact hacc' c hc
        · rw [searchLoop_cons_keep hret hskip hstop] at hc
          exact ih _ _ hacc' c hc

/-- The search loop never grows its collection beyond the limit, starting
strictly below it. -/
theorem searchLoop_length_le (tags : List String) (limit : Nat) :
    ∀ (cands : List (Nat × Int)) (acc : List MemoryContext) (e : MemoryEngine),
      acc.length < limit →
      (searchLoop tags limit cands acc e).1.length ≤ limit := by
  intro cands
  induction cands with
  | nil =>
    intro acc e h
    exact Nat.le_of_lt h
  | cons p rest ih =>
    intro acc e h
    obtain ⟨cid, s⟩ := p
    rcases hret : e.retrieve_memory cid with ⟨res, e2⟩
    cases res with
    | none =>
      rw [searchLoop_cons_miss hret]
      exact ih acc _ h
    | some ctx =>
      by_cases hskip : (!tags.isEmpty && !(tags.any fun t => ctx.tags.contains t)) = true
      · rw [searchLoop_cons_skip hret hskip]
        exact ih acc _ h
      · by_cases hstop : limit ≤ (acc ++ [ctx]).length
        · rw [searchLoop_cons_stop hret hskip hstop]
          simpa using h
        · rw [searchLoop_cons_keep hret hskip hstop]
          exact ih _ _ (Nat.lt_of_not_le hstop)

/-- The ids the search loop returns extend the collection in candidate
order: they form a subsequence of collected-so-far ++ candidate ids. -/
theorem searchLoop_ids_sublist (tags : List String) (limit : Nat) :
    ∀ (cands : List (Nat × Int)) (acc : List MemoryContext) (e : MemoryEngine),
      WFStore e →
      List.Sublist ((searchLoop tags limit cands acc e).1.map (fun c => c.id))
        (acc.map (fun c => c.id) ++ cands.map Prod.fst) := by
  intro cands
  induction cands with
  | nil =>
    intro acc e _
    simp [searchLoop]
  | cons p rest ih =>
    intro acc e hwf
    obtain ⟨cid, s⟩ := p
    have hstep : ∀ l : List Nat,
        List.Sublist l (acc.map (fun c => c.id) ++ rest.map Prod.fst) →
        List.Sublist l (acc.map (fun c => c.id) ++ ((cid, s) :: rest).map Prod.fst) := by
      intro l hl
      refine hl.trans ?_
      exact (List.sublist_cons_self cid (rest.map Prod.fst)).append_left _
    rcases hret : e.retrieve_memory cid with ⟨res, e2⟩
    have hwf2 : WFStore e2 := by
      have := retrieve_memory_WF hwf cid
      rwa [hret] at this
    cases res with
    | none =>
      rw [searchLoop_cons_miss hret]
      exact hstep _ (ih acc e2 hwf2)
    | some ctx =>
      have hid : ctx.id = cid := by
        have hr1 : (e.retrieve_memory cid).1 = some ctx := by rw [hret]
        exact retrieve_memory_id hwf hr1
      by_cases hskip : (!tags.isEmpty && !(tags.any fun t => ctx.tags.contains t)) = true
      · rw [searchLoop_cons_skip hret hskip]
        exact hstep _ (ih acc e2 hwf2)
      · by_cases hstop : limit ≤ (acc ++ [ctx]).length
        · rw [searchLoop_cons_stop hret hskip hstop]
          simp only [List.map_append, List.map_cons, List.map_nil, List.map, hid]
          exact ((List.nil_sublist (rest.map Prod.fst)).cons₂ cid).append_left _
        · rw [searchLoop_cons_keep hret hskip hstop]
          have := ih (acc ++ [ctx]) e2 hwf2
          simp only [List.map_append, List.map_cons, List.map_nil, hid] at this
          refine this.trans ?_
          simp only [List.map_cons]
          rw [List.append_assoc]
          exact List.Sublist.refl _

/-- C5: search asks the index for 2×limit ranked candidates and collects
from them in order: with a non-empty tag filter every returned record
shares a tag with the filter, at most limit records are returned, and the
returned ids are a subsequence of the index's ranked candidate ids. -/
theorem search_memories_spec (e : MemoryEngine) (query : String)
    (tags : List String) (limit : Nat) (hwf : WFStore e) (htags : tags ≠ [])
    (hlim : 1 ≤ limit) :
    (∀ c ∈ (e.search_memories query tags limit).1,
      ∃ t ∈ tags, c.tags.contains t = true) ∧
    (e.search_memories query tags limit).1.length ≤ limit ∧
    List.Sublist ((e.search_memories query tags limit).1.map (fun c => c.id))
      ((e.vector.query_similar query (limit * 2)).map Prod.fst) := by
  unfold MemoryEngine.search_memories
  refine ⟨searchLoop_tag_sound tags limit htags _ [] e (by simp),
          searchLoop_length_le tags limit _ [] e (by simpa using hlim),
          by simpa using searchLoop_ids_sublist tags limit _ [] e hwf⟩

/-- Witness for C5: a concrete engine holding a record tagged "a" and a
record tagged "b", with the index ranking both — searching with tag
filter ["b"] returns only records sharing tag "b". -/
theorem search_memories_spec_witness :
    ((["b"] : List String) ≠ []) ∧
    (∀ c ∈ (({ max_ram_size := 5, ram_buffer := { max_size := 5 },
               persistent := [(0, { id := 0, content := [], tags := ["a"],
                                    timestamp := 0, session_id := 0 }),
                              (1, { id := 1, content := [], tags := ["b"],
                                    timestamp := 1, session_id := 0 })],
               vector := { entries := [0, 1],
                           query_similar := fun _ _ => [(0, 0), (1, 0)] },
               session_id := 0, workspace_path := "ws", next_id := 2,
               clock := 2 } : MemoryEngine).search_memories "q" ["b"] 3).1,
      ∃ t ∈ (["b"] : List String), c.tags.contains t = true) :=
  ⟨by decide,
   (search_memories_spec
     { max_ram_size := 5, ram_buffer := { max_size := 5 },
       persistent := [(0, { id := 0, content := [], tags := ["a"],
                            timestamp := 0, session_id := 0 }),
                      (1, { id := 1, content := [], tags := ["b"],
                            timestamp := 1, session_id := 0 })],
       vector := { entries := [0, 1],
                   query_similar := fun _ _ => [(0, 0), (1, 0)] },
       session_id := 0, workspace_path := "ws", next_id := 2, clock := 2 }
     "q" ["b"] 3 (by constructor <;> decide) (by decide) (by decide)).1⟩

/-! ### Claim C6: priority ordering of the task queue -/

/-- Enqueue a whole list of tasks in order. -/
def enqueueAll (ts : List AgentTask) : List (Int × Nat × AgentTask) :=
  ts.foldl TaskQueue.add_task []

theorem entryKeyLt_iff {a b : Int × Nat × AgentTask} :
    entryKeyLt a b = true ↔ a.1 < b.1 ∨ (a.1 = b.1 ∧ a.2.1 < b.2.1) := by
  simp [entryKeyLt, Bool.or_eq_true, Bool.and_eq_true, decide_eq_true_eq]

theorem entryKeyLt_irrefl (a : Int × Nat × AgentTask) :
    ¬entryKeyLt a a = true := by
  simp [entryKeyLt_iff]

theorem entryKeyLt_neg_trans {a b c : Int × Nat × AgentTask}
    (hab : ¬entryKeyLt a b = true) (hbc : ¬entryKeyLt b c = true) :
    ¬entryKeyLt a c = true := by
  rw [entryKeyLt_iff] at hab hbc ⊢
  push_neg at hab hbc ⊢
  constructor
  · omega
  · intro h
    omega

theorem popMinEntry_eq_none {l : List (Int × Nat × AgentTask)}
    (h : popMinEntry l = none) : l = [] := by
  cases l with
  | nil => rfl
  | cons p rest =>
    simp only [popMinEntry] at h
    split at h
    · cases h
    · split at h <;> cases h

/-- popMinEntry returns an element of the list below which no other
element sorts. -/
theorem popMinEntry_min :
    ∀ (l : List (Int × Nat × AgentTask)) (m : Int × Nat × AgentTask)
      (l' : List (Int × Nat × AgentTask)),
      popMinEntry l = some (m, l') →
      m ∈ l ∧ ∀ x ∈ l, ¬entryKeyLt x m = true := by
  intro l
  induction l with
  | nil => intro m l' h; cases h
  | cons p rest ih =>
    intro m l' h
    cases hrest : popMinEntry rest with
    | none =>
      have hrnil := popMinEntry_eq_none hrest
      subst hrnil
      simp only [popMinEntry] at h
      cases h
      refine ⟨List.mem_singleton_self _, ?_⟩
      intro x hx
      rw [List.mem_singleton.mp hx]
      exact entryKeyLt_irrefl _
    | some q =>
      obtain ⟨qm, qrest⟩ := q
      simp only [popMinEntry, hrest] at h
      obtain ⟨hqm, hqmin⟩ := ih qm qrest hrest
      by_cases hlt : entryKeyLt qm p = true
      · rw [if_pos hlt] at h
        cases h
        refine ⟨List.mem_cons_of_mem _ hqm, ?_⟩
        intro x hx
        rcases List.mem_cons.mp hx with hx | hx
        · subst hx
          rw [entryKeyLt_iff] at hlt ⊢
          push_neg
          constructor
          · omega
          · intro hh
            omega
        · exact hqmin x hx
      · rw [if_neg hlt] at h
        cases h
        refine ⟨List.mem_cons_self _ _, ?_⟩
        intro x hx
        rcases List.mem_cons.mp hx with hx | hx
        · subst hx
          exact entryKeyLt_irrefl _
        · exact entryKeyLt_neg_trans (hqmin x hx) hlt

theorem enqueueAll_eq (ts : List AgentTask) :
    enqueueAll ts = ts.map (fun t => (-t.priority, t.created_at, t)) := by
  have hgen : ∀ (us : List AgentTask) (q : List (Int × Nat × AgentTask)),
      us.foldl TaskQueue.add_task q =
        q ++ us.map (fun t => (-t.priority, t.created_at, t)) := by
    intro us
    induction us with
    | nil => intro q; simp
    | cons u rest ih =>
      intro q
      simp only [List.foldl_cons, List.map_cons, ih, TaskQueue.add_task]
      simp
  simpa using hgen ts []

/-- C6: dequeue from the queue built by enqueueing any list of tasks
returns a task of maximal priority, and among tasks of that priority one
with the least creation time — higher priority first, FIFO inside a
priority band. -/
theorem dequeue_priority_order (ts : List AgentTask) (t : AgentTask)
    (q' : List (Int × Nat × AgentTask))
    (h : TaskQueue.get_next_task (enqueueAll ts) = (some t, q')) :
    t ∈ ts ∧ ∀ u ∈ ts, u.priority ≤ t.priority ∧
      (u.priority = t.priority → t.created_at ≤ u.created_at) := by
  unfold TaskQueue.get_next_task at h
  cases hpop : popMinEntry (enqueueAll ts) with
  | none =>
    rw [hpop] at h
    cases h
  | some r =>
    obtain ⟨m, l'⟩ := r
    rw [hpop] at h
    cases h
    obtain ⟨hmem, hmin⟩ := popMinEntry_min _ _ _ hpop
    rw [enqueueAll_eq] at hmem
    obtain ⟨u, hu, hmu⟩ := List.mem_map.mp hmem
    have hm22 : m.2.2 = u := by rw [← hmu]
    constructor
    · rw [hm22]
      exact hu
    · intro v hv
      have hvmem : (-v.priority, v.created_at, v) ∈ enqueueAll ts := by
        rw [enqueueAll_eq]
        exact List.mem_map.mpr ⟨v, hv, rfl⟩
      have h1 : m.1 ≤ -v.priority ∧ (-v.priority = m.1 → m.2.1 ≤ v.created_at) := by
        have hx := hmin _ hvmem
        rw [entryKeyLt_iff] at hx
        push_neg at hx
        exact hx
      have h2 : -u.priority ≤ -v.priority ∧
          (-v.priority = -u.priority → u.created_at ≤ v.created_at) := by
        rw [← hmu] at h1
        exact h1
      simp only [hm22]
      constructor
      · have := h2.1
        omega
      · intro heq
        have := h2.2 (by omega)
        omega

/-- A small concrete task, used to exercise the queue theorems. -/
def mkTask (i : Nat) (nm : String) (p : Int) (c : Nat) : AgentTask :=
  { id := i, name := nm, description := "", plugin_chain := [],
    parameters := [], priority := p, created_at := c }

/-- Witness for C6, the spec's concrete scenario: priorities [1, 5, 3] —
the first dequeued task is the priority-5 one, and every enqueued task
has priority at most the dequeued one's. -/
theorem dequeue_priority_order_witness :
    (TaskQueue.get_next_task (enqueueAll
        [mkTask 0 "a" 1 0, mkTask 1 "b" 5 1, mkTask 2 "c" 3 2]) =
      (some (mkTask 1 "b" 5 1),
       [(-1, 0, mkTask 0 "a" 1 0), (-3, 2, mkTask 2 "c" 3 2)])) ∧
    (∀ u ∈ [mkTask 0 "a" 1 0, mkTask 1 "b" 5 1, mkTask 2 "c" 3 2],
      u.priority ≤ (5 : Int)) :=
  ⟨rfl, fun u hu =>
    ((dequeue_priority_order
        [mkTask 0 "a" 1 0, mkTask 1 "b" 5 1, mkTask 2 "c" 3 2]
        (mkTask 1 "b" 5 1)
        [(-1, 0, mkTask 0 "a" 1 0), (-3, 2, mkTask 2 "c" 3 2)]
        rfl).2 u hu).1⟩

/-! ### Claim C3: LRU eviction machinery -/

/-- The RAM buffer as freshly constructed with a given capacity. -/
def emptyBuf (N : Nat) : RAMBuffer :=
  { max_size := N }

/-- A "linear" buffer state: records kcs in insertion order whose access
times are the consecutive clock ticks starting at t0 — the state reached
by pure fresh inserts. -/
def linBuf (N : Nat) (kcs : List (Nat × MemoryContext)) (t0 : Nat) : RAMBuffer :=
  { max_size := N, buffer := kcs,
    access_times := (kcs.map Prod.fst).zip (List.range' t0 kcs.length),
    clock := t0 + kcs.length }

/-- Put a whole list of keyed records, in order. -/
def putList (b : RAMBuffer) : List (Nat × MemoryContext) → RAMBuffer
  | [] => b
  | (k, c) :: rest => putList (b.put k c) rest

theorem eraseA_cons_self {κ α : Type} [DecidableEq κ] (k : κ) (v : α)
    (rest : List (κ × α)) : eraseA k ((k, v) :: rest) = rest := by
  simp [eraseA]

theorem eraseA_cons_ne {κ α : Type} [DecidableEq κ] {k k' : κ} (v : α)
    (rest : List (κ × α)) (h : k' ≠ k) :
    eraseA k ((k', v) :: rest) = (k', v) :: eraseA k rest := by
  simp [eraseA, h]

theorem updateA_cons_self {κ α : Type} [DecidableEq κ] (k : κ) (v v' : α)
    (rest : List (κ × α)) : updateA k v ((k, v') :: rest) = (k, v) :: rest := by
  simp [updateA]

theorem argminA_eq_none {l : List (Nat × Nat)} (h : argminA l = none) :
    l = [] := by
  cases l with
  | nil => rfl
  | cons p rest =>
    simp only [argminA] at h
    split at h <;> cases h

/-- argminA returns a member attaining the least value. -/
theorem argminA_min :
    ∀ (l : List (Nat × Nat)) (m : Nat × Nat), argminA l = some m →
      m ∈ l ∧ ∀ x ∈ l, m.2 ≤ x.2 := by
  intro l
  induction l with
  | nil => intro m h; cases h
  | cons p rest ih =>
    intro m h
    cases hrest : argminA rest with
    | none =>
      simp only [argminA, hrest] at h
      cases h
      have := argminA_eq_none hrest
      subst this
      refine ⟨List.mem_singleton_self _, ?_⟩
      intro x hx
      rw [List.mem_singleton.mp hx]
    | some q =>
      simp only [argminA, hrest] at h
      obtain ⟨hq, hqmin⟩ := ih q hrest
      by_cases hlt : q.2 < p.2
      · rw [if_pos hlt] at h
        cases h
        refine ⟨List.mem_cons_of_mem _ hq, ?_⟩
        intro x hx
        rcases List.mem_cons.mp hx with hx | hx
        · rw [hx]
          exact Nat.le_of_lt hlt
        · exact hqmin x hx
      · rw [if_neg hlt] at h
        cases h
        refine ⟨List.mem_cons_self _ _, ?_⟩
        intro x hx
        rcases List.mem_cons.mp hx with hx | hx
        · rw [hx]
        · exact Nat.le_trans (Nat.le_of_not_lt hlt) (hqmin x hx)

/-- When one entry's value is strictly below every other entry's,
argminA returns exactly that entry. -/
theorem argminA_strict :
    ∀ (l : List (Nat × Nat)) (k v : Nat), (k, v) ∈ l →
      (∀ x ∈ l, x = (k, v) ∨ v < x.2) → argminA l = some (k, v) := by
  intro l
  induction l with
  | nil => intro k v hmem _; cases hmem
  | cons p rest ih =>
    intro k v hmem hmin
    cases hrest : argminA rest with
    | none =>
      have := argminA_eq_none hrest
      subst this
      rcases List.mem_singleton.mp hmem with h
      rw [h]
      rfl
    | some q =>
      have hgoal : argminA (p :: rest) = some (if q.2 < p.2 then q else p) := by
        simp [argminA, hrest]
      rw [hgoal]
      obtain ⟨hq, _⟩ := argminA_min rest q hrest
      rcases List.mem_cons.mp hmem with hp | hmem'
      · subst hp
        rcases hmin q (List.mem_cons_of_mem _ hq) with hqe | hqv
        · rw [hqe]
          simp
        · rw [if_neg (by simp; omega)]
      · have hrec : argminA rest = some (k, v) := by
          apply ih k v hmem'
          intro x hx
          exact hmin x (List.mem_cons_of_mem _ hx)
        rw [hrest] at hrec
        cases hrec
        rcases hmin p (List.mem_cons_self _ _) with hpe | hpv
        · rw [hpe]
          simp
        · rw [if_pos (by simpa using hpv)]

/-- Fresh put below capacity appends the record and stamps the clock. -/
theorem put_fresh_grow (b : RAMBuffer) (key : Nat) (ctx : MemoryContext)
    (hlen : b.buffer.length < b.max_size)
    (hb : key ∉ keysA b.buffer) (ht : key ∉ keysA b.access_times) :
    b.put key ctx = { b with buffer := b.buffer ++ [(key, ctx)],
                             access_times := b.access_times ++ [(key, b.clock)],
                             clock := b.clock + 1 } := by
  unfold RAMBuffer.put
  rw [if_neg (by omega)]
  simp only [updateA_eq_append_of_not_mem _ hb, updateA_eq_append_of_not_mem _ ht]

/-- The keys of a linear state are its records' keys. -/
theorem linBuf_times_keys (N : Nat) (kcs : List (Nat × MemoryContext)) (t0 : Nat) :
    keysA (linBuf N kcs t0).access_times = keysA kcs := by
  unfold linBuf keysA
  exact List.map_fst_zip _ _ (by simp [List.length_range'])

/-- Growing a linear state with a fresh key below capacity stays linear. -/
theorem linBuf_put_grow (N t0 : Nat) (kcs : List (Nat × MemoryContext))
    (key : Nat) (ctx : MemoryContext) (hlen : kcs.length < N)
    (hk : key ∉ keysA kcs) :
    (linBuf N kcs t0).put key ctx = linBuf N (kcs ++ [(key, ctx)]) t0 := by
  rw [put_fresh_grow _ _ _ (by simpa [linBuf] using hlen)
      (by simpa [linBuf, keysA] using hk)
      (by rw [linBuf_times_keys]; exact hk)]
  unfold linBuf
  congr 1
  · simp only [keysA, List.map_append, List.map_cons, List.map_nil,
      List.length_append, List.length_cons, List.length_nil]
    rw [List.range'_1_concat]
    rw [List.zip_append (by simp [List.length_range'])]
    rfl
  · simp only [List.length_append, List.length_cons, List.length_nil]
    omega

/-- Putting a fresh key into a full linear state evicts exactly the
oldest (first-inserted) record and appends the new one: the window
slides. -/
theorem linBuf_put_slide (N t0 : Nat) (k0 : Nat) (c0 : MemoryContext)
    (rest : List (Nat × MemoryContext)) (key : Nat) (ctx : MemoryContext)
    (hN : ((k0, c0) :: rest).length = N)
    (hk : key ∉ keysA ((k0, c0) :: rest)) :
    (linBuf N ((k0, c0) :: rest) t0).put key ctx =
      linBuf N (rest ++ [(key, ctx)]) (t0 + 1) := by
  have hknotr : key ∉ keysA rest := by
    intro hmem
    exact hk (by
      simp only [keysA, List.map_cons, List.mem_cons]
      exact Or.inr hmem)
  have htimes : (linBuf N ((k0, c0) :: rest) t0).access_times =
      (k0, t0) :: (keysA rest).zip (List.range' (t0 + 1) rest.length) := by
    show (((k0, c0) :: rest).map Prod.fst).zip
        (List.range' t0 ((k0, c0) :: rest).length) = _
    simp only [List.map_cons, List.length_cons]
    rw [List.range'_succ]
    simp [keysA]
  have hargmin : argminA (linBuf N ((k0, c0) :: rest) t0).access_times =
      some (k0, t0) := by
    rw [htimes]
    apply argminA_strict
    · exact List.mem_cons_self _ _
    · intro x hx
      rcases List.mem_cons.mp hx with hx | hx
      · exact Or.inl hx
      · right
        have := (List.of_mem_zip hx).2
        rw [List.mem_range'_1] at this
        omega
  have hevict : (linBuf N ((k0, c0) :: rest) t0).evict_lru =
      { max_size := N, buffer := rest,
        access_times := (keysA rest).zip (List.range' (t0 + 1) rest.length),
        clock := t0 + (rest.length + 1) } := by
    simp only [RAMBuffer.evict_lru, hargmin]
    rw [htimes]
    show ({ max_size := N, buffer := eraseA k0 ((k0, c0) :: rest),
            access_times := eraseA k0 ((k0, t0) ::
              (keysA rest).zip (List.range' (t0 + 1) rest.length)),
            clock := t0 + ((k0, c0) :: rest).length } : RAMBuffer) = _
    rw [eraseA_cons_self, eraseA_cons_self]
    rfl
  unfold RAMBuffer.put
  rw [if_pos (show (linBuf N ((k0, c0) :: rest) t0).max_size ≤
      (linBuf N ((k0, c0) :: rest) t0).buffer.length from le_of_eq hN.symm)]
  simp only [hevict]
  have hkt : key ∉ keysA ((keysA rest).zip (List.range' (t0 + 1) rest.length)) := by
    rw [show keysA ((keysA rest).zip (List.range' (t0 + 1) rest.length)) = keysA rest from
      List.map_fst_zip _ _ (by simp [keysA, List.length_range'])]
    exact hknotr
  simp only [updateA_eq_append_of_not_mem _ hknotr, updateA_eq_append_of_not_mem _ hkt]
  unfold linBuf
  congr 1
  · simp only [keysA, List.map_append, List.map_cons, List.map_nil,
      List.length_append, List.length_cons, List.length_nil]
    rw [List.range'_1_concat]
    rw [List.zip_append (by simp [List.length_range'])]
    simp [keysA]
    omega
  · simp only [List.length_append, List.length_cons, List.length_nil]
    omega

theorem not_mem_left_of_nodup_append_cons {α : Type} {l1 l2 : List α} {a : α}
    (h : (l1 ++ a :: l2).Nodup) : a ∉ l1 := by
  rw [List.nodup_append] at h
  intro hmem
  exact h.2.2 hmem (List.mem_cons_self _ _)

/-- Pushing any run of fresh records through a linear cache state keeps a
linear state holding exactly the last min(total, capacity) records: the
window of most recent inserts. -/
theorem putList_lin_window :
    ∀ (kcs cur : List (Nat × MemoryContext)) (N t0 : Nat),
      1 ≤ N → cur.length ≤ N →
      (keysA (cur ++ kcs)).Nodup →
      putList (linBuf N cur t0) kcs =
        linBuf N
          ((cur ++ kcs).drop
            (cur.length + kcs.length - min (cur.length + kcs.length) N))
          (t0 + (cur.length + kcs.length - min (cur.length + kcs.length) N)) := by
  intro kcs
  induction kcs with
  | nil =>
    intro cur N t0 hN hcur _
    have hd : cur.length + ([] : List (Nat × MemoryContext)).length -
        min (cur.length + ([] : List (Nat × MemoryContext)).length) N = 0 := by
      simp only [List.length_nil, Nat.add_zero]
      omega
    rw [hd]
    simp [putList]
  | cons kc rest ih =>
    intro cur N t0 hN hcur hnd
    obtain ⟨k, c⟩ := kc
    have hknotcur : k ∉ keysA cur := by
      have h' : (keysA cur ++ k :: keysA rest).Nodup := by
        simpa [keysA] using hnd
      exact not_mem_left_of_nodup_append_cons h'
    rw [show putList (linBuf N cur t0) ((k, c) :: rest) =
          putList ((linBuf N cur t0).put k c) rest from rfl]
    by_cases hlt : cur.length < N
    · rw [linBuf_put_grow N t0 cur k c hlt hknotcur]
      rw [ih (cur ++ [(k, c)]) N t0 hN (by simp; omega)
          (by simpa [List.append_assoc] using hnd)]
      have hlist : (cur ++ [(k, c)]) ++ rest = cur ++ (k, c) :: rest := by simp
      have hd : (cur ++ [(k, c)]).length + rest.length -
          min ((cur ++ [(k, c)]).length + rest.length) N =
          cur.length + ((k, c) :: rest).length -
          min (cur.length + ((k, c) :: rest).length) N := by
        simp only [List.length_append, List.length_cons, List.length_nil]
        omega
      rw [hlist, hd]
    · have hcurN : cur.length = N := by omega
      cases cur with
      | nil =>
        exfalso
        simp at hcurN
        omega
      | cons p ctl =>
        obtain ⟨k0, c0⟩ := p
        have hknot' : k ∉ keysA ((k0, c0) :: ctl) := hknotcur
        rw [linBuf_put_slide N t0 k0 c0 ctl k c hcurN hknot']
        have hctl : ctl.length + 1 = N := by simpa using hcurN
        have hnd' : (keysA ((ctl ++ [(k, c)]) ++ rest)).Nodup := by
          have h0 : (k0 :: keysA (ctl ++ (k, c) :: rest)).Nodup := by
            simpa [keysA] using hnd
          have h1 := h0.of_cons
          simpa [keysA, List.append_assoc] using h1
        rw [ih (ctl ++ [(k, c)]) N (t0 + 1) hN (by simp; omega) hnd']
        have hdC : (ctl ++ [(k, c)]).length + rest.length -
            min ((ctl ++ [(k, c)]).length + rest.length) N = rest.length := by
          simp only [List.length_append, List.length_cons, List.length_nil]
          omega
        have hdB : ((k0, c0) :: ctl).length + ((k, c) :: rest).length -
            min (((k0, c0) :: ctl).length + ((k, c) :: rest).length) N =
            rest.length + 1 := by
          simp only [List.length_cons]
          omega
        rw [hdC, hdB]
        have hlist2 : (ctl ++ [(k, c)]) ++ rest = ctl ++ (k, c) :: rest := by simp
        rw [hlist2]
        have hdrop : (((k0, c0) :: ctl) ++ (k, c) :: rest).drop (rest.length + 1) =
            (ctl ++ (k, c) :: rest).drop rest.length := by
          rw [List.cons_append, List.drop_succ_cons]
        rw [hdrop]
        congr 1
        omega

/-- After a refresh of the first record, a fresh put at capacity evicts
the oldest never-re-read record (the head of the middle segment), not the
refreshed one. -/
theorem rot_put_step (k0 k1 j : Nat) (c0 c1 cj : MemoryContext)
    (mid' fin : List (Nat × MemoryContext)) (T t1 N : Nat)
    (hlen : 1 + (mid'.length + 1) + fin.length = N)
    (hT : t1 + (mid'.length + 1) ≤ T)
    (hk0k1 : k0 ≠ k1)
    (hjk0 : j ≠ k0) (hjmid : j ∉ keysA ((k1, c1) :: mid'))
    (hjfin : j ∉ keysA fin) :
    RAMBuffer.put
      { max_size := N, buffer := (k0, c0) :: ((k1, c1) :: mid') ++ fin,
        access_times := (k0, T) ::
          ((keysA ((k1, c1) :: mid')).zip (List.range' t1 (mid'.length + 1)) ++
           (keysA fin).zip (List.range' (T + 1) fin.length)),
        clock := T + 1 + fin.length } j cj =
      { max_size := N, buffer := (k0, c0) :: mid' ++ (fin ++ [(j, cj)]),
        access_times := (k0, T) ::
          ((keysA mid').zip (List.range' (t1 + 1) mid'.length) ++
           (keysA (fin ++ [(j, cj)])).zip
             (List.range' (T + 1) (fin.length + 1))),
        clock := T + 1 + (fin.length + 1) } := by
  have hjmid' : j ∉ keysA mid' := by
    intro h
    exact hjmid (by simp [keysA] at h ⊢; exact Or.inr h)
  have hjk1 : j ≠ k1 := by
    intro h
    exact hjmid (by simp [keysA, h])
  have hmidzip : (keysA ((k1, c1) :: mid')).zip (List.range' t1 (mid'.length + 1)) =
      (k1, t1) :: (keysA mid').zip (List.range' (t1 + 1) mid'.length) := by
    simp only [keysA, List.map_cons]
    rw [List.range'_succ]
    rfl
  have hargmin : argminA ((k0, T) ::
      ((keysA ((k1, c1) :: mid')).zip (List.range' t1 (mid'.length + 1)) ++
       (keysA fin).zip (List.range' (T + 1) fin.length))) = some (k1, t1) := by
    rw [hmidzip]
    apply argminA_strict
    · exact List.mem_cons_of_mem _ (by
        rw [List.cons_append]
        exact List.mem_cons_self _ _)
    · intro x hx
      rcases List.mem_cons.mp hx with hx | hx
      · right
        rw [hx]
        omega
      · rw [List.cons_append] at hx
        rcases List.mem_cons.mp hx with hx | hx
        · exact Or.inl hx
        · right
          rcases List.mem_append.mp hx with hx | hx
          · have := (List.of_mem_zip hx).2
            rw [List.mem_range'_1] at this
            omega
          · have := (List.of_mem_zip hx).2
            rw [List.mem_range'_1] at this
            omega
  have hevict : RAMBuffer.evict_lru
      { max_size := N, buffer := (k0, c0) :: ((k1, c1) :: mid') ++ fin,
        access_times := (k0, T) ::
          ((keysA ((k1, c1) :: mid')).zip (List.range' t1 (mid'.length + 1)) ++
           (keysA fin).zip (List.range' (T + 1) fin.length)),
        clock := T + 1 + fin.length } =
      { max_size := N, buffer := (k0, c0) :: (mid' ++ fin),
        access_times := (k0, T) ::
          ((keysA mid').zip (List.range' (t1 + 1) mid'.length) ++
           (keysA fin).zip (List.range' (T + 1) fin.length)),
        clock := T + 1 + fin.length } := by
    simp only [RAMBuffer.evict_lru, hargmin]
    rw [hmidzip]
    rw [show ((k0, c0) :: ((k1, c1) :: mid') ++ fin) =
        ((k0, c0) :: (k1, c1) :: (mid' ++ fin)) from by simp]
    rw [eraseA_cons_ne _ _ hk0k1, eraseA_cons_self]
    rw [eraseA_cons_ne _ _ hk0k1]
    rw [show ((k1, t1) :: (keysA mid').zip (List.range' (t1 + 1) mid'.length) ++
        (keysA fin).zip (List.range' (T + 1) fin.length)) =
        ((k1, t1) :: ((keysA mid').zip (List.range' (t1 + 1) mid'.length) ++
        (keysA fin).zip (List.range' (T + 1) fin.length))) from by simp]
    rw [eraseA_cons_self]
  unfold RAMBuffer.put
  rw [if_pos (show N ≤ ((k0, c0) :: ((k1, c1) :: mid') ++ fin).length from by
    simp
    omega)]
  simp only [hevict]
  have hjbuf : j ∉ keysA ((k0, c0) :: (mid' ++ fin)) := by
    simp only [keysA, List.map_cons, List.map_append, List.mem_cons,
      List.mem_append]
    push_neg
    refine ⟨hjk0, ?_, ?_⟩
    · simpa [keysA] using hjmid'
    · simpa [keysA] using hjfin
  have hjtimes : j ∉ keysA ((k0, T) ::
      ((keysA mid').zip (List.range' (t1 + 1) mid'.length) ++
       (keysA fin).zip (List.range' (T + 1) fin.length))) := by
    simp only [keysA, List.map_cons, List.map_append, List.mem_cons,
      List.mem_append]
    push_neg
    refine ⟨hjk0, ?_, ?_⟩
    · rw [List.map_fst_zip _ _ (by simp [keysA, List.length_range'])]
      simpa [keysA] using hjmid'
    · rw [List.map_fst_zip _ _ (by simp [keysA, List.length_range'])]
      simpa [keysA] using hjfin
  simp only [updateA_eq_append_of_not_mem _ hjbuf,
    updateA_eq_append_of_not_mem _ hjtimes]
  congr 1
  · simp
  · simp only [List.cons_append, List.append_assoc]
    congr 2
    simp only [keysA, List.map_append, List.map_cons, List.map_nil]
    rw [List.range'_1_concat]
    rw [List.zip_append (by simp [List.length_range'])]
    simp

/-- After refreshing the head record, a run of fresh puts (no longer than
the never-re-read segment) evicts only never-re-read records, oldest
first; the refreshed record stays cached. -/
theorem rot_puts :
    ∀ (js mid fin : List (Nat × MemoryContext)) (k0 : Nat) (c0 : MemoryContext)
      (T t1 N : Nat),
      1 + mid.length + fin.length = N →
      t1 + mid.length ≤ T →
      k0 ∉ keysA mid → k0 ∉ keysA fin → k0 ∉ keysA js →
      (∀ x ∈ keysA js, x ∉ keysA mid) →
      (∀ x ∈ keysA js, x ∉ keysA fin) →
      (keysA js).Nodup →
      js.length ≤ mid.length →
      putList { max_size := N, buffer := (k0, c0) :: mid ++ fin,
                access_times := (k0, T) ::
                  ((keysA mid).zip (List.range' t1 mid.length) ++
                   (keysA fin).zip (List.range' (T + 1) fin.length)),
                clock := T + 1 + fin.length } js =
        { max_size := N, buffer := (k0, c0) :: mid.drop js.length ++ (fin ++ js),
          access_times := (k0, T) ::
            ((keysA (mid.drop js.length)).zip
               (List.range' (t1 + js.length) (mid.length - js.length)) ++
             (keysA (fin ++ js)).zip
               (List.range' (T + 1) (fin.length + js.length))),
          clock := T + 1 + fin.length + js.length } := by
  intro js
  induction js with
  | nil =>
    intro mid fin k0 c0 T t1 N h1 h2 h3 h4 h5 h6 h7 h8 h9
    simp [putList]
  | cons p js' ih =>
    intro mid fin k0 c0 T t1 N h1 h2 h3 h4 h5 h6 h7 h8 h9
    obtain ⟨j, cj⟩ := p
    cases mid with
    | nil => simp at h9
    | cons q mid' =>
      obtain ⟨k1, c1⟩ := q
      have hk0k1 : k0 ≠ k1 := by
        intro h
        exact h3 (by simp [keysA, h])
      have hjk0 : j ≠ k0 := by
        intro h
        exact h5 (by simp [keysA, h.symm])
      have hjmid : j ∉ keysA ((k1, c1) :: mid') := h6 j (by simp [keysA])
      have hjfin : j ∉ keysA fin := h7 j (by simp [keysA])
      simp only [putList, List.length_cons]
      rw [rot_put_step k0 k1 j c0 c1 cj mid' fin T t1 N
          (by simpa using h1) (by simpa using h2) hk0k1 hjk0 hjmid hjfin]
      have c1' : 1 + mid'.length + (fin ++ [(j, cj)]).length = N := by
        simp only [List.length_append, List.length_cons, List.length_nil]
        simp only [List.length_cons] at h1
        omega
      have c2' : (t1 + 1) + mid'.length ≤ T := by
        simp only [List.length_cons] at h2
        omega
      have c3' : k0 ∉ keysA mid' := by
        intro h
        exact h3 (by simp [keysA] at h ⊢; exact Or.inr h)
      have c4' : k0 ∉ keysA (fin ++ [(j, cj)]) := by
        simp only [keysA, List.map_append, List.map_cons, List.map_nil,
          List.mem_append, List.mem_singleton]
        push_neg
        exact ⟨by simpa [keysA] using h4, Ne.symm hjk0⟩
      have c5' : k0 ∉ keysA js' := by
        intro h
        exact h5 (by simp [keysA] at h ⊢; exact Or.inr h)
      have c6' : ∀ x ∈ keysA js', x ∉ keysA mid' := by
        intro x hx hmem
        exact h6 x (by simp [keysA] at hx ⊢; exact Or.inr hx)
          (by simp [keysA] at hmem ⊢; exact Or.inr hmem)
      have c7' : ∀ x ∈ keysA js', x ∉ keysA (fin ++ [(j, cj)]) := by
        intro x hx
        simp only [keysA, List.map_append, List.map_cons, List.map_nil,
          List.mem_append, List.mem_singleton]
        push_neg
        constructor
        · exact fun hmem => h7 x (by simp [keysA] at hx ⊢; exact Or.inr hx)
            (by simpa [keysA] using hmem)
        · intro hxe
          have hnd : (j :: keysA js').Nodup := by simpa [keysA] using h8
          rw [hxe] at hx
          exact (List.nodup_cons.mp hnd).1 (by simpa [keysA] using hx)
      have c8' : (keysA js').Nodup := by
        have hnd : (j :: keysA js').Nodup := by simpa [keysA] using h8
        exact (List.nodup_cons.mp hnd).2
      have c9' : js'.length ≤ mid'.length := by
        simp only [List.length_cons] at h9
        omega
      have ihh := ih mid' (fin ++ [(j, cj)]) k0 c0 T (t1 + 1) N c1' c2' c3'
        c4' c5' c6' c7' c8' c9'
      simp only [List.length_append, List.length_cons, List.length_nil,
        Nat.zero_add] at ihh
      rw [ihh]
      have harith1 : t1 + (js'.length + 1) = t1 + 1 + js'.length := by omega
      have harith2 : fin.length + (js'.length + 1) = fin.length + 1 + js'.length := by omega
      have harith3 : T + 1 + fin.length + (js'.length + 1) =
          T + 1 + (fin.length + 1) + js'.length := by omega
      have harith4 : mid'.length + 1 - (js'.length + 1) = mid'.length - js'.length := by
        omega
      simp only [List.drop_succ_cons, List.append_assoc, List.cons_append,
        List.nil_append, harith1, harith2, harith3, harith4]

/-- Reading the first-inserted record of a full linear state refreshes
its access time to the current clock, leaving everything else in place. -/
theorem linBuf_get_head (N t0 : Nat) (k0 : Nat) (c0 : MemoryContext)
    (tl : List (Nat × MemoryContext)) :
    (linBuf N ((k0, c0) :: tl) t0).get k0 =
      (some c0,
       { max_size := N, buffer := (k0, c0) :: tl,
         access_times := (k0, t0 + (tl.length + 1)) ::
           (keysA tl).zip (List.range' (t0 + 1) tl.length),
         clock := t0 + (tl.length + 1) + 1 }) := by
  have hl : lookupA k0 (linBuf N ((k0, c0) :: tl) t0).buffer = some c0 := by
    show lookupA k0 ((k0, c0) :: tl) = some c0
    simp [lookupA]
  have htimes : (linBuf N ((k0, c0) :: tl) t0).access_times =
      (k0, t0) :: (keysA tl).zip (List.range' (t0 + 1) tl.length) := by
    show (((k0, c0) :: tl).map Prod.fst).zip
        (List.range' t0 ((k0, c0) :: tl).length) = _
    simp only [List.map_cons, List.length_cons]
    rw [List.range'_succ]
    rfl
  simp only [RAMBuffer.get, hl]
  rw [htimes, updateA_cons_self]
  rfl

/-- Once every never-re-read record has been evicted, the next fresh put
finally evicts the refreshed record. -/
theorem rot_put_last (k0 j : Nat) (c0 cj : MemoryContext)
    (fin : List (Nat × MemoryContext)) (T N : Nat)
    (hlen : 1 + fin.length = N)
    (hk0fin : k0 ∉ keysA fin) (hjk0 : j ≠ k0) :
    k0 ∉ keysA (RAMBuffer.put
      { max_size := N, buffer := (k0, c0) :: fin,
        access_times := (k0, T) ::
          (keysA fin).zip (List.range' (T + 1) fin.length),
        clock := T + 1 + fin.length } j cj).buffer := by
  have hargmin : argminA ((k0, T) ::
      (keysA fin).zip (List.range' (T + 1) fin.length)) = some (k0, T) := by
    apply argminA_strict
    · exact List.mem_cons_self _ _
    · intro x hx
      rcases List.mem_cons.mp hx with hx | hx
      · exact Or.inl hx
      · right
        have := (List.of_mem_zip hx).2
        rw [List.mem_range'_1] at this
        omega
  unfold RAMBuffer.put
  rw [if_pos (show N ≤ ((k0, c0) :: fin).length from by simp; omega)]
  simp only [RAMBuffer.evict_lru, hargmin, eraseA_cons_self]
  intro hmem
  simp only [keysA, List.mem_map] at hmem
  obtain ⟨p, hp, hpk⟩ := hmem
  rcases mem_of_mem_updateA hp with hmem' | heq
  · exact hk0fin (by
      simp only [keysA, List.mem_map]
      exact ⟨p, hmem', hpk⟩)
  · rw [heq] at hpk
    exact hjk0 hpk

/-- C3: the RAM buffer is a true LRU cache bounded by its capacity:
(1) a put at capacity evicts exactly the entry with the least (oldest)
access time before inserting; (2) a get of a cached key refreshes that
key's access time to the current clock; (3) inserting N+1 distinct keys
into an empty capacity-N cache with no intervening reads leaves exactly
the last N — only the first-inserted key is evicted; (4) after filling
the cache and re-reading the first key, N-1 further fresh inserts evict
exactly the never-re-read keys while the re-read key stays cached, and
only the N-th further insert finally evicts it. -/
theorem lru_cache_spec :
    (∀ (b : RAMBuffer) (key : Nat) (ctx : MemoryContext) (k v : Nat),
      b.max_size ≤ b.buffer.length →
      argminA b.access_times = some (k, v) →
      (b.put key ctx).buffer = updateA key ctx (eraseA k b.buffer) ∧
      (k, v) ∈ b.access_times ∧ (∀ x ∈ b.access_times, v ≤ x.2)) ∧
    (∀ (b : RAMBuffer) (key : Nat) (ctx : MemoryContext),
      lookupA key b.buffer = some ctx →
      (b.get key).1 = some ctx ∧
      (b.get key).2.access_times = updateA key b.clock b.access_times ∧
      lookupA key (b.get key).2.access_times = some b.clock) ∧
    (∀ (N k0 : Nat) (c0 : MemoryContext) (tl : List (Nat × MemoryContext)),
      1 ≤ N → ((k0, c0) :: tl).length = N + 1 →
      (keysA ((k0, c0) :: tl)).Nodup →
      (putList (emptyBuf N) ((k0, c0) :: tl)).buffer = tl ∧
      k0 ∉ keysA (putList (emptyBuf N) ((k0, c0) :: tl)).buffer) ∧
    (∀ (N k0 jN : Nat) (c0 cjN : MemoryContext)
       (tl js : List (Nat × MemoryContext)),
      ((k0, c0) :: tl).length = N → js.length = tl.length →
      (keysA tl).Nodup → k0 ∉ keysA tl →
      (keysA js).Nodup → k0 ∉ keysA js →
      (∀ x ∈ keysA js, x ∉ keysA tl) →
      jN ∉ k0 :: (keysA tl ++ keysA js) →
      (k0 ∈ keysA (putList ((putList (emptyBuf N)
          ((k0, c0) :: tl)).get k0).2 js).buffer ∧
       (∀ x ∈ keysA tl, x ∉ keysA (putList ((putList (emptyBuf N)
          ((k0, c0) :: tl)).get k0).2 js).buffer) ∧
       k0 ∉ keysA ((putList ((putList (emptyBuf N)
          ((k0, c0) :: tl)).get k0).2 js).put jN cjN).buffer)) := by
  refine ⟨?_, ?_, ?_, ?_⟩
  · intro b key ctx k v hcap hargmin
    obtain ⟨hmem, hmin⟩ := argminA_min _ _ hargmin
    refine ⟨?_, hmem, hmin⟩
    unfold RAMBuffer.put
    rw [if_pos hcap]
    simp [RAMBuffer.evict_lru, hargmin]
  · intro b key ctx h
    refine ⟨?_, ?_, ?_⟩ <;>
      simp [RAMBuffer.get, h, lookupA_updateA_self]
  · intro N k0 c0 tl hN hlen hnd
    have hw := putList_lin_window ((k0, c0) :: tl) [] N 0 hN (by simp)
      (by simpa using hnd)
    have hd : ([] : List (Nat × MemoryContext)).length + ((k0, c0) :: tl).length -
        min (([] : List (Nat × MemoryContext)).length +
          ((k0, c0) :: tl).length) N = 1 := by
      simp only [List.length_nil, List.length_cons, Nat.zero_add]
      simp only [List.length_cons] at hlen
      omega
    rw [hd] at hw
    have h0 : emptyBuf N = linBuf N [] 0 := rfl
    rw [h0, hw]
    have hk0tl : k0 ∉ keysA tl := by
      have hcons : (k0 :: keysA tl).Nodup := by simpa [keysA] using hnd
      exact (List.nodup_cons.mp hcons).1
    constructor
    · show ([] ++ (k0, c0) :: tl).drop 1 = tl
      simp
    · show k0 ∉ keysA (([] ++ (k0, c0) :: tl).drop 1)
      simpa using hk0tl
  · intro N k0 jN c0 cjN tl js hN hjslen hndtl hk0tl hndjs hk0js hjstl hjN
    have hNval : tl.length + 1 = N := by simpa using hN
    have hjNk0 : jN ≠ k0 := by
      intro h
      exact hjN (by simp [h])
    have hndfull : (keysA ((k0, c0) :: tl)).Nodup := by
      simp only [keysA, List.map_cons]
      exact List.nodup_cons.mpr ⟨by simpa [keysA] using hk0tl,
        by simpa [keysA] using hndtl⟩
    have hw := putList_lin_window ((k0, c0) :: tl) [] N 0 (by omega) (by simp)
      (by simpa using hndfull)
    have hd : ([] : List (Nat × MemoryContext)).length + ((k0, c0) :: tl).length -
        min (([] : List (Nat × MemoryContext)).length +
          ((k0, c0) :: tl).length) N = 0 := by
      simp only [List.length_nil, List.length_cons, Nat.zero_add]
      omega
    rw [hd] at hw
    simp only [List.drop_zero, List.nil_append, Nat.add_zero] at hw
    have h0 : emptyBuf N = linBuf N [] 0 := rfl
    have hget := linBuf_get_head N 0 k0 c0 tl
    simp only [Nat.zero_add] at hget
    have hrot := rot_puts js tl [] k0 c0 (tl.length + 1) 1 N
      (by simp; omega) (by omega) hk0tl (by simp [keysA]) hk0js
      hjstl (fun x hx => by simp [keysA]) hndjs (le_of_eq hjslen)
    have hdropnil : tl.drop js.length = ([] : List (Nat × MemoryContext)) := by
      rw [hjslen]
      exact List.drop_length _
    have hsub0 : tl.length - js.length = 0 := by omega
    have hkeysnil : keysA ([] : List (Nat × MemoryContext)) = [] := rfl
    simp only [hdropnil, hsub0, hkeysnil, List.zip_nil_left, List.nil_append,
      List.append_nil, Nat.add_zero, List.range'_zero, List.zip_nil_right,
      List.length_nil, List.singleton_append, Nat.zero_add] at hrot
    have hCore : putList ((putList (emptyBuf N) ((k0, c0) :: tl)).get k0).2 js =
        { max_size := N, buffer := (k0, c0) :: js,
          access_times := (k0, tl.length + 1) ::
            (keysA js).zip (List.range' (tl.length + 1 + 1) js.length),
          clock := tl.length + 1 + 1 + js.length } := by
      rw [h0, hw, hget]
      show putList
          { max_size := N, buffer := (k0, c0) :: tl,
            access_times := (k0, tl.length + 1) ::
              (keysA tl).zip (List.range' 1 tl.length),
            clock := tl.length + 1 + 1 } js = _
      exact hrot
    refine ⟨?_, ?_, ?_⟩
    · rw [hCore]
      simp [keysA]
    · intro x hx
      rw [hCore]
      simp only [keysA, List.map_cons, List.mem_cons, List.mem_map]
      push_neg
      constructor
      · intro hxe
        rw [hxe] at hx
        exact hk0tl hx
      · intro p hp hpx
        exact hjstl p.1 (by
          simp only [keysA, List.mem_map]
          exact ⟨p, hp, rfl⟩) (by rw [hpx]; exact hx)
    · rw [hCore]
      exact rot_put_last k0 jN c0 cjN js (tl.length + 1) N (by omega) hk0js hjNk0

/-- A minimal record value for exercising the cache theorems. -/
def mkCtx0 : MemoryContext :=
  { id := 0, content := [], tags := [], timestamp := 0, session_id := 0 }

/-- Witness for C3 on concrete caches of capacity 2: three fresh inserts
evict exactly the first key; re-reading the first key before one more
fresh insert keeps it cached (the never-re-read key is evicted instead),
and only the following insert evicts it. -/
theorem lru_cache_spec_witness :
    ((1 : Nat) ≤ 2) ∧
    ((putList (emptyBuf 2) [(5, mkCtx0), (6, mkCtx0), (7, mkCtx0)]).buffer =
      [(6, mkCtx0), (7, mkCtx0)]) ∧
    (5 ∉ keysA (putList (emptyBuf 2)
      [(5, mkCtx0), (6, mkCtx0), (7, mkCtx0)]).buffer) ∧
    (1 ∈ keysA (putList ((putList (emptyBuf 2)
      [(1, mkCtx0), (2, mkCtx0)]).get 1).2 [(3, mkCtx0)]).buffer) ∧
    (1 ∉ keysA ((putList ((putList (emptyBuf 2)
      [(1, mkCtx0), (2, mkCtx0)]).get 1).2 [(3, mkCtx0)]).put 4 mkCtx0).buffer) := by
  have h3 := lru_cache_spec.2.2.1 2 5 mkCtx0 [(6, mkCtx0), (7, mkCtx0)]
    (by decide) rfl (by decide)
  have h4 := lru_cache_spec.2.2.2 2 1 4 mkCtx0 mkCtx0 [(2, mkCtx0)] [(3, mkCtx0)]
    rfl rfl (by decide) (by decide) (by decide) (by decide) (by decide) (by decide)
  exact ⟨by decide, h3.1, h3.2, h4.1, h4.2.2⟩

/-! ### Claim C4: read-after-write, durability across eviction -/

/-- Store a whole list of (content, tags) payloads, in order. -/
def storeList (e : MemoryEngine) :
    List (List (String × Json) × List String) → MemoryEngine
  | [] => e
  | (c, t) :: rest => storeList (e.store_memory c t).2 rest

/-- The keyed records a run of stores places in the RAM buffer. -/
def storePairs (e : MemoryEngine) :
    List (List (String × Json) × List String) → List (Nat × MemoryContext)
  | [] => []
  | (c, t) :: rest =>
    (e.next_id,
     { id := e.next_id, content := c, tags := t, timestamp := e.clock,
       session_id := e.session_id, workspace_path := some e.workspace_path,
       git_hash := e.git_hash }) :: storePairs (e.store_memory c t).2 rest

theorem storeList_ram :
    ∀ (items : List (List (String × Json) × List String)) (e : MemoryEngine),
      (storeList e items).ram_buffer = putList e.ram_buffer (storePairs e items) := by
  intro items
  induction items with
  | nil => intro e; rfl
  | cons it rest ih =>
    intro e
    obtain ⟨c, t⟩ := it
    simp only [storeList, storePairs, putList]
    rw [ih]
    rfl

theorem storeList_next_id :
    ∀ (items : List (List (String × Json) × List String)) (e : MemoryEngine),
      (storeList e items).next_id = e.next_id + items.length := by
  intro items
  induction items with
  | nil => intro e; simp [storeList]
  | cons it rest ih =>
    intro e
    obtain ⟨c, t⟩ := it
    simp only [storeList, List.length_cons]
    rw [ih]
    show e.next_id + 1 + rest.length = _
    omega

theorem storePairs_keys :
    ∀ (items : List (List (String × Json) × List String)) (e : MemoryEngine),
      keysA (storePairs e items) = List.range' e.next_id items.length := by
  intro items
  induction items with
  | nil => intro e; rfl
  | cons it rest ih =>
    intro e
    obtain ⟨c, t⟩ := it
    simp only [storePairs, keysA, List.map_cons, List.length_cons]
    rw [List.range'_succ]
    congr 1
    have := ih (e.store_memory c t).2
    simpa [keysA] using this

theorem storePairs_length :
    ∀ (items : List (List (String × Json) × List String)) (e : MemoryEngine),
      (storePairs e items).length = items.length := by
  intro items e
  have : keysA (storePairs e items) = List.range' e.next_id items.length :=
    storePairs_keys items e
  have hlen := congrArg List.length this
  simpa [keysA, List.length_range'] using hlen

/-- A run of stores never touches the durable entry of an id that was
already allocated before the run. -/
theorem storeList_persistent_old :
    ∀ (items : List (List (String × Json) × List String)) (e : MemoryEngine)
      (cid : Nat), cid < e.next_id →
      lookupA cid (storeList e items).persistent = lookupA cid e.persistent := by
  intro items
  induction items with
  | nil => intro e cid _; rfl
  | cons it rest ih =>
    intro e cid hlt
    obtain ⟨c, t⟩ := it
    simp only [storeList]
    rw [ih _ _ (by show cid < e.next_id + 1; omega)]
    show lookupA cid (updateA e.next_id _ e.persistent) = _
    exact lookupA_updateA_ne _ _ (by omega)

/-- C4: (1) retrieving the id just returned by store returns a record
with exactly the stored content and tags (read-after-write); (2) from a
fresh engine with a capacity-N cache, after storing N+5 records the first
record's id has been evicted from the cache, yet retrieving it still
returns the correct content — served from the durable tier — and
re-promotes it into the cache. -/
theorem read_after_write_spec :
    (∀ (e : MemoryEngine) (content : List (String × Json)) (tags : List String),
      ∃ ctx, (((e.store_memory content tags).2).retrieve_memory
          (e.store_memory content tags).1).1 = some ctx ∧
        ctx.content = content ∧ ctx.tags = tags) ∧
    (∀ (N sid : Nat) (ws : String) (rank : String → Nat → List (Nat × Int))
       (c0 : List (String × Json)) (t0 : List String)
       (rest : List (List (String × Json) × List String)),
      1 ≤ N → rest.length = N + 4 →
      (0 ∉ keysA (storeList (MemoryEngine.init N sid ws rank)
          ((c0, t0) :: rest)).ram_buffer.buffer) ∧
      ∃ ctx,
        ((storeList (MemoryEngine.init N sid ws rank)
            ((c0, t0) :: rest)).retrieve_memory 0).1 = some ctx ∧
        ctx.content = c0 ∧ ctx.tags = t0 ∧
        0 ∈ keysA ((storeList (MemoryEngine.init N sid ws rank)
            ((c0, t0) :: rest)).retrieve_memory 0).2.ram_buffer.buffer) := by
  constructor
  · intro e content tags
    exact ⟨{ id := e.next_id, content := content, tags := tags,
             timestamp := e.clock, session_id := e.session_id,
             workspace_path := some e.workspace_path, git_hash := e.git_hash },
           retrieve_memory_cache_hit _ e.next_id _ (lookupA_updateA_self _ _ _),
           rfl, rfl⟩
  · intro N sid ws rank c0 t0 rest hN hrest
    set e0 := MemoryEngine.init N sid ws rank with he0
    have hram : (storeList e0 ((c0, t0) :: rest)).ram_buffer =
        putList (linBuf N [] 0) (storePairs e0 ((c0, t0) :: rest)) := by
      rw [storeList_ram]
      rfl
    have hkeys : keysA (storePairs e0 ((c0, t0) :: rest)) =
        List.range' 0 (N + 5) := by
      rw [storePairs_keys]
      show List.range' 0 ((c0, t0) :: rest).length = _
      simp [hrest]
    have hplen : (storePairs e0 ((c0, t0) :: rest)).length = N + 5 := by
      rw [storePairs_length]
      simp [hrest]
    have hnd : (keysA ([] ++ storePairs e0 ((c0, t0) :: rest))).Nodup := by
      rw [List.nil_append, hkeys]
      exact List.nodup_range' _ _
    have hw := putList_lin_window (storePairs e0 ((c0, t0) :: rest)) [] N 0
      hN (by simp) hnd
    have hd : ([] : List (Nat × MemoryContext)).length +
        (storePairs e0 ((c0, t0) :: rest)).length -
        min (([] : List (Nat × MemoryContext)).length +
          (storePairs e0 ((c0, t0) :: rest)).length) N = 5 := by
      simp only [List.length_nil, Nat.zero_add, hplen]
      omega
    rw [hd] at hw
    simp only [List.nil_append, Nat.zero_add] at hw
    have hbufkeys : keysA (storeList e0 ((c0, t0) :: rest)).ram_buffer.buffer =
        List.range' 5 N := by
      rw [hram, hw]
      show keysA ((storePairs e0 ((c0, t0) :: rest)).drop 5) = _
      unfold keysA
      rw [List.map_drop, ← keysA]
      rw [hkeys]
      rw [← List.range'_append_1 0 5 N]
      simp only [Nat.zero_add]
      exact List.drop_left (List.range' 0 5) (List.range' 5 N)
    have hnotmem : 0 ∉ keysA (storeList e0 ((c0, t0) :: rest)).ram_buffer.buffer := by
      rw [hbufkeys, List.mem_range'_1]
      omega
    refine ⟨hnotmem, ?_⟩
    have hbuf0 : lookupA 0 (storeList e0 ((c0, t0) :: rest)).ram_buffer.buffer = none :=
      lookupA_eq_none_of_not_mem hnotmem
    have hper : lookupA 0 (storeList e0 ((c0, t0) :: rest)).persistent =
        some { id := 0, content := c0, tags := t0, timestamp := 0,
               session_id := sid, workspace_path := some ws, git_hash := none } := by
      show lookupA 0 (storeList (e0.store_memory c0 t0).2 rest).persistent = _
      rw [storeList_persistent_old rest (e0.store_memory c0 t0).2 0
        (by show (0 : Nat) < 0 + 1; omega)]
      show lookupA 0 (updateA 0 _ ([] : List (Nat × MemoryContext))) = _
      rw [lookupA_updateA_self]
      rfl
    have hret : (storeList e0 ((c0, t0) :: rest)).retrieve_memory 0 =
        (some { id := 0, content := c0, tags := t0, timestamp := 0,
                session_id := sid, workspace_path := some ws, git_hash := none },
         { storeList e0 ((c0, t0) :: rest) with
           ram_buffer := (storeList e0 ((c0, t0) :: rest)).ram_buffer.put 0
             { id := 0, content := c0, tags := t0, timestamp := 0,
               session_id := sid, workspace_path := some ws, git_hash := none } }) := by
      simp [MemoryEngine.retrieve_memory, RAMBuffer.get, hbuf0, hper]
    refine ⟨{ id := 0, content := c0, tags := t0, timestamp := 0,
              session_id := sid, workspace_path := some ws, git_hash := none },
            by rw [hret], rfl, rfl, ?_⟩
    rw [hret]
    show 0 ∈ keysA (((storeList e0 ((c0, t0) :: rest)).ram_buffer.put 0 _).buffer)
    have hlook : lookupA 0 (((storeList e0 ((c0, t0) :: rest)).ram_buffer.put 0
        { id := 0, content := c0, tags := t0, timestamp := 0,
          session_id := sid, workspace_path := some ws, git_hash := none }).buffer) =
        some { id := 0, content := c0, tags := t0, timestamp := 0,
               session_id := sid, workspace_path := some ws, git_hash := none } := by
      show lookupA 0 (updateA 0 _ _) = _
      rw [lookupA_updateA_self]
    have := mem_of_lookupA hlook
    simp only [keysA, List.mem_map]
    exact ⟨_, this, rfl⟩

/-- Five filler records for exercising the durability theorem. -/
def fillerItems : List (List (String × Json) × List String) :=
  [([("a", Json.num 1)], []), ([("a", Json.num 2)], []),
   ([("a", Json.num 3)], []), ([("a", Json.num 4)], []),
   ([("a", Json.num 5)], [])]

/-- Witness for C4: a capacity-1 engine storing 6 records — the first id
is evicted from the cache, as the theorem's eviction conjunct states at
this input. -/
theorem read_after_write_spec_witness :
    ((1 : Nat) ≤ 1) ∧ fillerItems.length = 1 + 4 ∧
    (0 ∉ keysA (storeList (MemoryEngine.init 1 0 "ws" (fun _ _ => []))
        (([("k", Json.str "v0")], ["t"]) :: fillerItems)).ram_buffer.buffer) :=
  ⟨by decide, rfl,
   (read_after_write_spec.2 1 0 "ws" (fun _ _ => []) [("k", Json.str "v0")]
     ["t"] fillerItems (by decide) rfl).1⟩

/-! ### Claim C2: chain short-circuit on plugin failure -/

/-- Durable-log key discipline: every persisted key was allocated by the
id counter. -/
def KeysBelow (e : MemoryEngine) : Prop :=
  ∀ p ∈ e.persistent, p.1 < e.next_id

theorem store_memory_persistent_append (e : MemoryEngine)
    (c : List (String × Json)) (t : List String) (h : KeysBelow e) :
    (e.store_memory c t).2.persistent = e.persistent ++
      [(e.next_id,
        { id := e.next_id, content := c, tags := t, timestamp := e.clock,
          session_id := e.session_id, workspace_path := some e.workspace_path,
          git_hash := e.git_hash })] := by
  show updateA e.next_id _ e.persistent = _
  apply updateA_eq_append_of_not_mem
  intro hmem
  simp only [keysA, List.mem_map] at hmem
  obtain ⟨p, hp, hpk⟩ := hmem
  have := h p hp
  omega

theorem store_memory_KeysBelow (e : MemoryEngine) (c : List (String × Json))
    (t : List String) (h : KeysBelow e) : KeysBelow (e.store_memory c t).2 := by
  intro p hp
  show p.1 < e.next_id + 1
  have hp' : p ∈ updateA e.next_id
      { id := e.next_id, content := c, tags := t, timestamp := e.clock,
        session_id := e.session_id, workspace_path := some e.workspace_path,
        git_hash := e.git_hash } e.persistent := hp
  rcases mem_of_mem_updateA hp' with hmem | heq
  · have := h p hmem
    omega
  · rw [heq]
    omega

theorem retrieve_memory_persistent_next (e : MemoryEngine) (cid : Nat) :
    (e.retrieve_memory cid).2.persistent = e.persistent ∧
    (e.retrieve_memory cid).2.next_id = e.next_id := by
  unfold MemoryEngine.retrieve_memory RAMBuffer.get
  cases h1 : lookupA cid e.ram_buffer.buffer with
  | some ctx => exact ⟨rfl, rfl⟩
  | none =>
    cases h2 : lookupA cid e.persistent with
    | some ctx => exact ⟨rfl, rfl⟩
    | none => exact ⟨rfl, rfl⟩

theorem execPreamble_persistent (task : AgentTask) (e : MemoryEngine) :
    (execPreamble task e).2.persistent = e.persistent ∧
    (execPreamble task e).2.next_id = e.next_id := by
  unfold execPreamble
  cases task.context_id with
  | some cid => exact retrieve_memory_persistent_next e cid
  | none => exact ⟨rfl, rfl⟩

theorem execPreamble_KeysBelow (task : AgentTask) (e : MemoryEngine)
    (h : KeysBelow e) : KeysBelow (execPreamble task e).2 := by
  intro p hp
  rw [(execPreamble_persistent task e).2]
  exact h p (by rwa [(execPreamble_persistent task e).1] at hp)

/-- chainLoop step equation on a successful plugin. -/
theorem chainLoop_cons_ok {pm : List (String × Plugin)} {task : AgentTask}
    {start : Nat} {name : String} {rest : List String}
    {execCtx chain_output : List (String × Json)} {memCtxs : List Nat}
    {e : MemoryEngine} {res : List (String × Json)}
    (h : execute_plugin pm name task.parameters execCtx = Except.ok res) :
    chainLoop pm task start (name :: rest) execCtx chain_output memCtxs e =
      chainLoop pm task start rest
        (updateA (name ++ "_output") (Json.obj res) execCtx)
        (updateA name (Json.obj res) chain_output)
        (memCtxs ++ [(e.store_memory
          [("task_id", Json.num task.id), ("plugin", Json.str name),
           ("output", Json.obj res),
           ("step", Json.num (updateA name (Json.obj res) chain_output).length)]
          ["task", "plugin_output", name]).1])
        ((e.store_memory
          [("task_id", Json.num task.id), ("plugin", Json.str name),
           ("output", Json.obj res),
           ("step", Json.num (updateA name (Json.obj res) chain_output).length)]
          ["task", "plugin_output", name]).2) := by
  simp [chainLoop, h]

/-- chainLoop step equation on a raising plugin: the chain stops, an
error record is stored, a failed result is returned. -/
theorem chainLoop_cons_err {pm : List (String × Plugin)} {task : AgentTask}
    {start : Nat} {name : String} {rest : List String}
    {execCtx chain_output : List (String × Json)} {memCtxs : List Nat}
    {e : MemoryEngine} {msg : String}
    (h : execute_plugin pm name task.parameters execCtx = Except.error msg) :
    chainLoop pm task start (name :: rest) execCtx chain_output memCtxs e =
      ({ task_id := task.id, status := TaskStatus.failed, output := none,
         error := some msg,
         execution_time := (e.store_memory
           [("task_id", Json.num task.id), ("status", Json.str "failed"),
            ("error", Json.str msg), ("execution_time", Json.num (e.clock - start))]
           ["task", "failed", "error"]).2.clock - start,
         memory_contexts := memCtxs ++ [(e.store_memory
           [("task_id", Json.num task.id), ("status", Json.str "failed"),
            ("error", Json.str msg), ("execution_time", Json.num (e.clock - start))]
           ["task", "failed", "error"]).1] },
       (e.store_memory
         [("task_id", Json.num task.id), ("status", Json.str "failed"),
          ("error", Json.str msg), ("execution_time", Json.num (e.clock - start))]
         ["task", "failed", "error"]).2) := by
  simp [chainLoop, h]

/-- chainLoop only reads a task's id, name and parameters; two tasks
agreeing on those run identically. -/
theorem chainLoop_task_congr (pm : List (String × Plugin)) (t1 t2 : AgentTask)
    (start : Nat) (hid : t1.id = t2.id) (hpar : t1.parameters = t2.parameters)
    (hname : t1.name = t2.name) :
    ∀ (names : List String) (execCtx chain_output : List (String × Json))
      (memCtxs : List Nat) (e : MemoryEngine),
      chainLoop pm t1 start names execCtx chain_output memCtxs e =
      chainLoop pm t2 start names execCtx chain_output memCtxs e := by
  intro names
  induction names with
  | nil =>
    intro execCtx chain_output memCtxs e
    simp only [chainLoop, hid, hpar, hname]
  | cons name rest ih =>
    intro execCtx chain_output memCtxs e
    simp only [chainLoop, hid, hpar, hname]
    cases h : execute_plugin pm name t2.parameters execCtx with
    | error msg => rfl
    | ok res => exact ih _ _ _ _

/-- The core of C2 at the chain-loop level: if every plugin in the prefix
succeeds and plugin k always raises, the loop fails, ignores everything
after k, and extends the durable log with exactly one record per
completed prefix plugin (carrying its output) plus the error record —
and with plugin-output records for prefix plugins only. -/
theorem chainLoop_fail_spec (pm : List (String × Plugin)) (task : AgentTask)
    (start : Nat) (k : String)
    (hk : ∀ ctx, ∃ msg, execute_plugin pm k task.parameters ctx = Except.error msg) :
    ∀ (pre : List String),
      (∀ name ∈ pre, ∃ p, lookupA name pm = some p ∧
        p.validate task.parameters = true ∧
        ∀ ctx, ∃ out, p.run task.parameters ctx = Except.ok out) →
      ∀ (post post' : List String) (execCtx chain_output : List (String × Json))
        (memCtxs : List Nat) (e : MemoryEngine), KeysBelow e →
        ((chainLoop pm task start (pre ++ k :: post) execCtx chain_output memCtxs e).1.status
            = TaskStatus.failed) ∧
        ((chainLoop pm task start (pre ++ k :: post) execCtx chain_output memCtxs e).1.error.isSome
            = true) ∧
        (chainLoop pm task start (pre ++ k :: post') execCtx chain_output memCtxs e =
          chainLoop pm task start (pre ++ k :: post) execCtx chain_output memCtxs e) ∧
        (∃ newRecs : List (Nat × MemoryContext),
          (chainLoop pm task start (pre ++ k :: post) execCtx chain_output memCtxs e).2.persistent
            = e.persistent ++ newRecs ∧
          (∀ name ∈ pre, ∃ rec ∈ newRecs,
            lookupA "plugin" (Prod.snd rec).content = some (Json.str name) ∧
            (lookupA "output" (Prod.snd rec).content).isSome = true) ∧
          (∀ rec ∈ newRecs, ∀ name,
            lookupA "plugin" (Prod.snd rec).content = some (Json.str name) →
            name ∈ pre)) := by
  intro pre
  induction pre with
  | nil =>
    intro _ post post' execCtx chain_output memCtxs e hKB
    obtain ⟨msg, hmsg⟩ := hk execCtx
    rw [List.nil_append, List.nil_append, chainLoop_cons_err hmsg,
      chainLoop_cons_err hmsg]
    refine ⟨rfl, rfl, rfl, ?_⟩
    refine ⟨[(e.next_id,
      { id := e.next_id,
        content := [("task_id", Json.num task.id), ("status", Json.str "failed"),
          ("error", Json.str msg), ("execution_time", Json.num (e.clock - start))],
        tags := ["task", "failed", "error"], timestamp := e.clock,
        session_id := e.session_id, workspace_path := some e.workspace_path,
        git_hash := e.git_hash })], ?_, ?_, ?_⟩
    · exact store_memory_persistent_append e _ _ hKB
    · intro name hname
      cases hname
    · intro rec hrec name hname
      rw [List.mem_singleton.mp hrec] at hname
      simp [lookupA] at hname
  | cons name pre' ih =>
    intro hpre post post' execCtx chain_output memCtxs e hKB
    obtain ⟨p, hlp, hval, hrun⟩ := hpre name (List.mem_cons_self _ _)
    obtain ⟨out, hout⟩ := hrun execCtx
    have hok : execute_plugin pm name task.parameters execCtx = Except.ok out := by
      simp [execute_plugin, hlp, hval, hout]
    rw [List.cons_append, List.cons_append, chainLoop_cons_ok hok,
      chainLoop_cons_ok hok]
    have hpre' : ∀ nm ∈ pre', ∃ q, lookupA nm pm = some q ∧
        q.validate task.parameters = true ∧
        ∀ ctx, ∃ o, q.run task.parameters ctx = Except.ok o :=
      fun nm hnm => hpre nm (List.mem_cons_of_mem _ hnm)
    set e1 := (e.store_memory
      [("task_id", Json.num task.id), ("plugin", Json.str name),
       ("output", Json.obj out),
       ("step", Json.num (updateA name (Json.obj out) chain_output).length)]
      ["task", "plugin_output", name]).2 with he1
    have hKB1 : KeysBelow e1 := store_memory_KeysBelow e _ _ hKB
    obtain ⟨hstat, herr, hind, ⟨newRecs, hpers, hcover, honly⟩⟩ :=
      ih hpre' post post' (updateA (name ++ "_output") (Json.obj out) execCtx)
        (updateA name (Json.obj out) chain_output)
        (memCtxs ++ [(e.store_memory
          [("task_id", Json.num task.id), ("plugin", Json.str name),
           ("output", Json.obj out),
           ("step", Json.num (updateA name (Json.obj out) chain_output).length)]
          ["task", "plugin_output", name]).1]) e1 hKB1
    refine ⟨hstat, herr, hind, ?_⟩
    refine ⟨(e.next_id,
      { id := e.next_id,
        content := [("task_id", Json.num task.id), ("plugin", Json.str name),
          ("output", Json.obj out),
          ("step", Json.num (updateA name (Json.obj out) chain_output).length)],
        tags := ["task", "plugin_output", name], timestamp := e.clock,
        session_id := e.session_id, workspace_path := some e.workspace_path,
        git_hash := e.git_hash }) :: newRecs, ?_, ?_, ?_⟩
    · rw [hpers]
      rw [he1, store_memory_persistent_append e _ _ hKB]
      simp
    · intro nm hnm
      rcases List.mem_cons.mp hnm with hh | hh
      · subst hh
        refine ⟨_, List.mem_cons_self _ _, ?_, ?_⟩ <;> simp [lookupA]
      · obtain ⟨rec, hrecmem, hrec1, hrec2⟩ := hcover nm hh
        exact ⟨rec, List.mem_cons_of_mem _ hrecmem, hrec1, hrec2⟩
    · intro rec hrec nm hnm
      rcases List.mem_cons.mp hrec with hh | hh
      · rw [hh] at hnm
        have heq : name = nm := by
          simpa [lookupA] using hnm
        rw [← heq]
        exact List.mem_cons_self _ _
      · exact List.mem_cons_of_mem _ (honly rec hh nm hnm)

/-- C2: when some plugin k of the chain raises (and the plugins before it
succeed), the task's execution fails: the result status is failed with
the error recorded, nothing after k runs (the execution is identical for
any tail after k), and the durable log is extended by exactly one
plugin-output record per completed prefix plugin (each holding its
output) plus the error record — plugin-output records never mention any
plugin at or after k. -/
theorem chain_short_circuit (pm : List (String × Plugin)) (task : AgentTask)
    (e : MemoryEngine) (pre post : List String) (k : String)
    (hchain : task.plugin_chain = pre ++ k :: post)
    (hKB : KeysBelow e)
    (hpre : ∀ name ∈ pre, ∃ p, lookupA name pm = some p ∧
      p.validate task.parameters = true ∧
      ∀ ctx, ∃ out, p.run task.parameters ctx = Except.ok out)
    (hk : ∀ ctx, ∃ msg, execute_plugin pm k task.parameters ctx = Except.error msg) :
    ((execute_task_chain pm task e).1.status = TaskStatus.failed) ∧
    ((execute_task_chain pm task e).1.error.isSome = true) ∧
    (∀ post' : List String,
      execute_task_chain pm { task with plugin_chain := pre ++ k :: post' } e =
        execute_task_chain pm task e) ∧
    (∃ newRecs : List (Nat × MemoryContext),
      (execute_task_chain pm task e).2.persistent = e.persistent ++ newRecs ∧
      (∀ name ∈ pre, ∃ rec ∈ newRecs,
        lookupA "plugin" (Prod.snd rec).content = some (Json.str name) ∧
        (lookupA "output" (Prod.snd rec).content).isSome = true) ∧
      (∀ rec ∈ newRecs, ∀ name,
        lookupA "plugin" (Prod.snd rec).content = some (Json.str name) →
        name ∈ pre)) := by
  have hKB1 := execPreamble_KeysBelow task e hKB
  have hmain := chainLoop_fail_spec pm task e.clock k hk pre hpre post post
    (execPreamble task e).1 [] [] (execPreamble task e).2 hKB1
  have hdef : execute_task_chain pm task e =
      chainLoop pm task e.clock (pre ++ k :: post) (execPreamble task e).1 [] []
        (execPreamble task e).2 := by
    show chainLoop pm task e.clock task.plugin_chain _ _ _ _ = _
    rw [hchain]
  refine ⟨by rw [hdef]; exact hmain.1, by rw [hdef]; exact hmain.2.1, ?_, ?_⟩
  · intro post'
    have hmain' := chainLoop_fail_spec pm task e.clock k hk pre hpre post post'
      (execPreamble task e).1 [] [] (execPreamble task e).2 hKB1
    have hcongr := chainLoop_task_congr pm
      { task with plugin_chain := pre ++ k :: post' } task e.clock rfl rfl rfl
      (pre ++ k :: post') (execPreamble task e).1 [] [] (execPreamble task e).2
    calc execute_task_chain pm { task with plugin_chain := pre ++ k :: post' } e
        = chainLoop pm { task with plugin_chain := pre ++ k :: post' } e.clock
            (pre ++ k :: post') (execPreamble task e).1 [] []
            (execPreamble task e).2 := rfl
      _ = chainLoop pm task e.clock (pre ++ k :: post')
            (execPreamble task e).1 [] [] (execPreamble task e).2 := hcongr
      _ = chainLoop pm task e.clock (pre ++ k :: post)
            (execPreamble task e).1 [] [] (execPreamble task e).2 := hmain'.2.2.1
      _ = execute_task_chain pm task e := hdef.symm
  · obtain ⟨newRecs, hpers, hcover, honly⟩ := hmain.2.2.2
    refine ⟨newRecs, ?_, hcover, honly⟩
    rw [hdef, hpers, (execPreamble_persistent task e).1]

/-- A plugin that always succeeds, for exercising the chain theorems. -/
def okPlugin : Plugin :=
  { validate := fun _ => true,
    run := fun _ _ => Except.ok [("done", Json.bool true)] }

/-- A plugin that always raises, for exercising the chain theorems. -/
def failPlugin : Plugin :=
  { validate := fun _ => true,
    run := fun _ _ => Except.error "boom" }

/-- Witness for C2, the spec's 3-plugin scenario: p1 succeeds, p2 raises,
p3 is never consulted — the task fails. -/
theorem chain_short_circuit_witness :
    (({ id := 0, name := "w", description := "", plugin_chain := ["p1", "p2", "p3"],
        parameters := [], priority := 1, created_at := 0 } : AgentTask).plugin_chain =
      ["p1"] ++ "p2" :: ["p3"]) ∧
    ((execute_task_chain [("p1", okPlugin), ("p2", failPlugin), ("p3", okPlugin)]
        { id := 0, name := "w", description := "", plugin_chain := ["p1", "p2", "p3"],
          parameters := [], priority := 1, created_at := 0 }
        (MemoryEngine.init 10 0 "ws" (fun _ _ => []))).1.status = TaskStatus.failed) :=
  ⟨rfl,
   (chain_short_circuit [("p1", okPlugin), ("p2", failPlugin), ("p3", okPlugin)]
     { id := 0, name := "w", description := "", plugin_chain := ["p1", "p2", "p3"],
       parameters := [], priority := 1, created_at := 0 }
     (MemoryEngine.init 10 0 "ws" (fun _ _ => [])) ["p1"] ["p3"] "p2"
     rfl
     (fun p hp => absurd hp (List.not_mem_nil p))
     (fun name hname => by
       rw [List.mem_singleton.mp hname]
       exact ⟨okPlugin, rfl, rfl, fun ctx => ⟨[("done", Json.bool true)], rfl⟩⟩)
     (fun ctx => ⟨"boom", rfl⟩)).1⟩
